import Mathlib

/-!
Verification of the chime_tts audio helpers against their specification.

The development shallowly embeds the two source modules
`custom_components/chime_tts/helpers/helpers.py` and
`custom_components/chime_tts/helpers/media_player.py`:

* Python strings are `List Char`; `str.replace` and `str.split` are modelled
  by `replaceAll` and `pySplit` below.
* Python floats are modelled by `ℚ` (arithmetic is exact; the source only
  multiplies, divides and compares, and the claims under scrutiny either
  allow rounding slack or are independent of it).
* The filesystem is a list of existing paths; the external ffmpeg process,
  the audio save/load helpers and the YAML decoder are oracles passed in as
  parameters.
* Python exceptions that the source lets escape are modelled with
  `Except PyErr`; exceptions the source catches are folded into the
  corresponding fallback value exactly where the handler sits.

Audio buffers (pydub `AudioSegment`) are modelled as lists of integer
samples, one sample per millisecond, mixing with 16-bit saturation as pydub
does for two-byte sample widths.
-/

namespace ChimeTTS

/-- Abbreviation turning a string literal into the `List Char` representation
used throughout the model. -/
def ls (s : String) : List Char := s.data

/-- Literal quote character, written via its code point. -/
def quoteChar : Char := Char.ofNat 39

/-- Literal backslash character, written via its code point. -/
def backslashChar : Char := Char.ofNat 92

/-- One-character string holding a quote. -/
def QUOTE : List Char := [quoteChar]

/-- Two-character string: backslash followed by a quote. -/
def BSQUOTE : List Char := [backslashChar, quoteChar]

/-- Three-character string: two backslashes followed by a quote. -/
def BSBSQUOTE : List Char := [backslashChar, backslashChar, quoteChar]

/-- Fuel-indexed worker for `replaceAll`.  With enough fuel this is Python
`s.replace(pat, rep)`: scan left to right, replacing each (non-overlapping)
occurrence of `pat` by `rep`. -/
def replaceAllGo (pat rep : List Char) : ℕ → List Char → List Char
  | 0, s => s
  | fuel + 1, s =>
    match s with
    | [] => []
    | c :: rest =>
      if pat ≠ [] ∧ pat.isPrefixOf (c :: rest) then
        rep ++ replaceAllGo pat rep fuel ((c :: rest).drop pat.length)
      else
        c :: replaceAllGo pat rep fuel rest

/-- Python `s.replace(pat, rep)` for a non-empty pattern (every pattern used
by the source is a non-empty literal).  The length of `s` bounds the number
of scanning steps, so it is a sufficient fuel. -/
def replaceAll (pat rep s : List Char) : List Char :=
  replaceAllGo pat rep s.length s

/-- Python `pat in s` on strings: some contiguous occurrence of `pat`
(at a position, for a non-empty `pat`). -/
def containsSub (pat : List Char) : List Char → Bool
  | [] => decide (pat = [])
  | c :: rest => pat.isPrefixOf (c :: rest) || containsSub pat rest

/-- Worker for `pySplit`; `cur` is the reversed current token. -/
def pySplitAux : List Char → List Char → List (List Char)
  | [], cur => if cur = [] then [] else [cur.reverse]
  | c :: rest, cur =>
    if c.isWhitespace then
      if cur = [] then pySplitAux rest [] else cur.reverse :: pySplitAux rest []
    else
      pySplitAux rest (c :: cur)

/-- Python `s.split()` with no argument: split on runs of whitespace and
drop empty tokens. -/
def pySplit (s : List Char) : List (List Char) := pySplitAux s []

/-- The fuel of `replaceAllGo` is irrelevant once it is at least the length
of the string being scanned. -/
theorem replaceAllGo_fuel (pat rep : List Char) :
    ∀ fuel s, s.length ≤ fuel →
      replaceAllGo pat rep fuel s = replaceAll pat rep s := by
  have key : ∀ fuel₁ fuel₂ s, s.length ≤ fuel₁ → s.length ≤ fuel₂ →
      replaceAllGo pat rep fuel₁ s = replaceAllGo pat rep fuel₂ s := by
    intro fuel₁
    induction fuel₁ with
    | zero =>
      intro fuel₂ s h₁ _
      have : s = [] := List.length_eq_zero.mp (Nat.le_zero.mp h₁)
      subst this
      cases fuel₂ <;> rfl
    | succ n ih =>
      intro fuel₂ s h₁ h₂
      cases fuel₂ with
      | zero =>
        have : s = [] := List.length_eq_zero.mp (Nat.le_zero.mp h₂)
        subst this; rfl
      | succ m =>
        cases s with
        | nil => rfl
        | cons c rest =>
          simp only [replaceAllGo]
          by_cases hpre : pat ≠ [] ∧ pat.isPrefixOf (c :: rest)
          · simp only [if_pos hpre]
            have hp1 : 1 ≤ pat.length := by
              cases pat with
              | nil => exact absurd rfl hpre.1
              | cons _ _ => simp
            have hdl : ((c :: rest).drop pat.length).length
                = (rest.length + 1) - pat.length := by
              rw [List.length_drop, List.length_cons]
            have hlen : ((c :: rest).drop pat.length).length ≤ n := by
              rw [hdl]
              simp only [List.length_cons] at h₁
              omega
            have hlen₂ : ((c :: rest).drop pat.length).length ≤ m := by
              rw [hdl]
              simp only [List.length_cons] at h₂
              omega
            rw [ih m _ hlen hlen₂]
          · simp only [if_neg hpre]
            have hlen : rest.length ≤ n := by
              simp only [List.length_cons] at h₁; omega
            have hlen₂ : rest.length ≤ m := by
              simp only [List.length_cons] at h₂; omega
            rw [ih m _ hlen hlen₂]
  intro fuel s h
  exact key fuel s.length s h le_rfl

/-- Length bookkeeping for `replaceAllGo`: the output length is the input
length plus `k` copies of the length difference, where `k` is positive as
soon as the pattern occurs in the input. -/
theorem replaceAllGo_length (pat rep : List Char) :
    ∀ fuel s, s.length ≤ fuel →
      ∃ k : ℕ,
        ((replaceAllGo pat rep fuel s).length : ℤ)
            = s.length + k * ((rep.length : ℤ) - pat.length) ∧
        (pat ≠ [] → containsSub pat s = true → 1 ≤ k) := by
  intro fuel
  induction fuel with
  | zero =>
    intro s h
    have : s = [] := List.length_eq_zero.mp (Nat.le_zero.mp h)
    subst this
    refine ⟨0, by simp [replaceAllGo], ?_⟩
    intro hpat hcon
    simp [containsSub, hpat] at hcon
  | succ n ih =>
    intro s h
    cases s with
    | nil =>
      refine ⟨0, by simp [replaceAllGo], ?_⟩
      intro hpat hcon
      simp [containsSub, hpat] at hcon
    | cons c rest =>
      simp only [replaceAllGo]
      by_cases hpre : pat ≠ [] ∧ pat.isPrefixOf (c :: rest)
      · simp only [if_pos hpre]
        have hp1 : 1 ≤ pat.length := by
          cases pat with
          | nil => exact absurd rfl hpre.1
          | cons _ _ => simp
        have hple : pat.length ≤ (c :: rest).length :=
          (List.isPrefixOf_iff_prefix.mp hpre.2).length_le
        have hdl : ((c :: rest).drop pat.length).length
            = (c :: rest).length - pat.length := List.length_drop _ _
        have hfuel : ((c :: rest).drop pat.length).length ≤ n := by
          rw [hdl]; simp only [List.length_cons] at h ⊢; omega
        obtain ⟨k, hk, _⟩ := ih _ hfuel
        refine ⟨k + 1, ?_, fun _ _ => by omega⟩
        have hcast : (((c :: rest).drop pat.length).length : ℤ)
            = ((c :: rest).length : ℤ) - pat.length := by
          rw [hdl]
          exact_mod_cast Int.ofNat_sub hple
        rw [List.length_append, Nat.cast_add, hk, hcast]
        push_cast
        ring
      · simp only [if_neg hpre]
        have hfuel : rest.length ≤ n := by
          simp only [List.length_cons] at h; omega
        obtain ⟨k, hk, hkpos⟩ := ih _ hfuel
        refine ⟨k, ?_, ?_⟩
        · simp only [List.length_cons]
          push_cast
          linarith [hk]
        · intro hpat hcon
          refine hkpos hpat ?_
          simp only [containsSub, Bool.or_eq_true] at hcon
          rcases hcon with hc | hc
          · exact absurd ⟨hpat, hc⟩ hpre
          · exact hc

/-- In the equal-length case a replacement by a different string changes the
string at the first occurrence. -/
theorem replaceAllGo_ne_of_length_eq (pat rep : List Char)
    (hlen : rep.length = pat.length) (hne : rep ≠ pat) :
    ∀ fuel s, s.length ≤ fuel → pat ≠ [] → containsSub pat s = true →
      replaceAllGo pat rep fuel s ≠ s := by
  intro fuel
  induction fuel with
  | zero =>
    intro s h hpat hcon
    have : s = [] := List.length_eq_zero.mp (Nat.le_zero.mp h)
    subst this
    simp [containsSub, hpat] at hcon
  | succ n ih =>
    intro s h hpat hcon
    cases s with
    | nil => simp [containsSub, hpat] at hcon
    | cons c rest =>
      simp only [replaceAllGo]
      by_cases hpre : pat ≠ [] ∧ pat.isPrefixOf (c :: rest)
      · simp only [if_pos hpre]
        intro heq
        have hprefix : pat <+: (c :: rest) := List.isPrefixOf_iff_prefix.mp hpre.2
        obtain ⟨tail, htail⟩ := hprefix
        have htake : (c :: rest).take pat.length = pat := by
          rw [← htail, List.take_left]
        have htake₂ : (rep ++ replaceAllGo pat rep n ((c :: rest).drop pat.length)).take
            pat.length = rep := by
          rw [← hlen, List.take_left]
        rw [heq, htake] at htake₂
        exact hne htake₂.symm
      · simp only [if_neg hpre]
        have hcon₂ : containsSub pat rest = true := by
          simp only [containsSub, Bool.or_eq_true] at hcon
          rcases hcon with hc | hc
          · exact absurd ⟨hpat, hc⟩ hpre
          · exact hc
        have hfuel : rest.length ≤ n := by
          simp only [List.length_cons] at h; omega
        intro heq
        have htail : replaceAllGo pat rep n rest = rest := by injection heq
        exact ih rest hfuel hpat hcon₂ htail

/-- Replacing a non-empty pattern that occurs in `s` by a different string
changes `s`. -/
theorem replaceAll_ne (pat rep s : List Char)
    (hpat : pat ≠ []) (hne : rep ≠ pat) (hcon : containsSub pat s = true) :
    replaceAll pat rep s ≠ s := by
  by_cases hlen : rep.length = pat.length
  · exact replaceAllGo_ne_of_length_eq pat rep hlen hne s.length s le_rfl hpat hcon
  · intro heq
    obtain ⟨k, hk, hkpos⟩ := replaceAllGo_length pat rep s.length s le_rfl
    have hk1 : 1 ≤ k := hkpos hpat hcon
    rw [show replaceAllGo pat rep s.length s = replaceAll pat rep s from rfl, heq] at hk
    have hzero : (k : ℤ) * ((rep.length : ℤ) - pat.length) = 0 := by omega
    rcases mul_eq_zero.mp hzero with h0 | h0
    · omega
    · have : (rep.length : ℤ) = pat.length := by omega
      exact hlen (by exact_mod_cast this)



/-! ### Tempo decomposition (helpers.py, `add_atempo_values_to_ffmpeg_args_string`)

The source builds the local list `tempos`:

```
tempos = []
if tempo < 0.5:
    tempos = [0.5]
    remaining = tempo
    while remaining < 0.5:
        remaining /= 0.5
        if remaining >= 0.5:
            tempos.append(remaining)
            break
        tempos.append(0.5)
else:
    tempos = [tempo]
```

and then renders each entry as an `atempo=` filter stage.  The loop below is
the direct fuel-indexed embedding of the `while`; for a positive tempo the
denominator of the rational is a (generous) bound on the iteration count.
-/

/-- Fuel-indexed embedding of the `while remaining < 0.5` loop. -/
def atempoLoop : ℕ → ℚ → List ℚ → List ℚ
  | 0, _, tempos => tempos
  | fuel + 1, remaining, tempos =>
    if remaining < 1/2 then
      let r := remaining / (1/2)
      if r ≥ 1/2 then tempos ++ [r]
      else atempoLoop fuel r (tempos ++ [1/2])
    else tempos

/-- Stage list (`tempos`) computed by
`add_atempo_values_to_ffmpeg_args_string` for a given tempo factor.  For
`0 < tempo` the loop doubles `remaining` each round, so `tempo.den` rounds
are ample fuel (`2 ^ den ≥ den / 2` for every denominator). -/
def add_atempo_values_to_ffmpeg_args_string_tempos (tempo : ℚ) : List ℚ :=
  if tempo < 1/2 then atempoLoop tempo.den tempo [1/2]
  else [tempo]

/-- Loop invariant: starting below `1/2` with enough fuel, the loop emits
`k - 1` further halves and one residual stage `remaining * 2 ^ k`, which
lands in `[1/2, 1)`. -/
theorem atempoLoop_spec :
    ∀ (fuel : ℕ) (r : ℚ) (acc : List ℚ),
      0 < r → r < 1/2 → 1/2 ≤ r * 2 ^ fuel →
      ∃ k : ℕ, 1 ≤ k ∧
        atempoLoop fuel r acc = acc ++ List.replicate (k - 1) (1/2) ++ [r * 2 ^ k] ∧
        1/2 ≤ r * 2 ^ k ∧ r * 2 ^ k < 1 := by
  intro fuel
  induction fuel with
  | zero =>
    intro r acc hpos hlt hfuel
    simp only [pow_zero, mul_one] at hfuel
    linarith
  | succ n ih =>
    intro r acc hpos hlt hfuel
    have hr2 : r / (1/2) = r * 2 := by ring
    have hunfold : atempoLoop (n + 1) r acc
        = if r / (1/2) ≥ 1/2 then acc ++ [r / (1/2)]
          else atempoLoop n (r / (1/2)) (acc ++ [1/2]) := by
      rw [show atempoLoop (n + 1) r acc
          = if r < 1/2 then
              (if r / (1/2) ≥ 1/2 then acc ++ [r / (1/2)]
               else atempoLoop n (r / (1/2)) (acc ++ [1/2]))
            else acc from rfl, if_pos hlt]
    by_cases hge : r / (1/2) ≥ 1/2
    · have hge2 : 1/2 ≤ r * 2 := by rw [hr2] at hge; exact hge
      refine ⟨1, le_rfl, ?_, ?_, ?_⟩
      · rw [hunfold, if_pos hge, hr2]
        simp [pow_one]
      · rw [pow_one]; exact hge2
      · rw [pow_one]; linarith
    · have hlt2 : r / (1/2) < 1/2 := lt_of_not_le hge
      have hpos2 : 0 < r / (1/2) := by rw [hr2]; positivity
      have hfuel2 : 1/2 ≤ r / (1/2) * 2 ^ n := by
        rw [hr2]
        calc (1:ℚ)/2 ≤ r * 2 ^ (n + 1) := hfuel
        _ = r * 2 * 2 ^ n := by ring
      obtain ⟨k, hk1, heq, hlo, hhi⟩ := ih (r / (1/2)) (acc ++ [1/2]) hpos2 hlt2 hfuel2
      refine ⟨k + 1, by omega, ?_, ?_, ?_⟩
      · rw [hunfold, if_neg hge, heq]
        have hrep : (acc ++ [(1:ℚ)/2]) ++ List.replicate (k - 1) ((1:ℚ)/2)
            = acc ++ List.replicate (k + 1 - 1) ((1:ℚ)/2) := by
          rw [List.append_assoc]
          congr 1
          rw [List.singleton_append]
          rw [show ((1:ℚ)/2 :: List.replicate (k - 1) ((1:ℚ)/2))
              = List.replicate (k - 1 + 1) ((1:ℚ)/2) from rfl]
          congr 1
          omega
        rw [hrep]
        congr 2
        rw [hr2]
        ring
      · calc (1:ℚ)/2 ≤ r / (1/2) * 2 ^ k := hlo
        _ = r * 2 ^ (k + 1) := by rw [hr2]; ring
      · calc r * 2 ^ (k + 1) = r / (1/2) * 2 ^ k := by rw [hr2]; ring
        _ < 1 := hhi

/-- Auxiliary: for `0 < t`, the denominator fuel really is enough, i.e.
`1/2 ≤ t * 2 ^ t.den`. -/
theorem atempo_fuel_ample (t : ℚ) (ht : 0 < t) : 1/2 ≤ t * 2 ^ t.den := by
  have hden : 0 < (t.den : ℚ) := by exact_mod_cast t.pos
  have hnum : 1 ≤ t.num := by
    have := Rat.num_pos.mpr ht
    omega
  have hmul : t * t.den = (t.num : ℚ) := by
    have h := Rat.num_div_den t
    calc t * (t.den:ℚ) = ((t.num:ℚ) / (t.den:ℚ)) * (t.den:ℚ) := by rw [h]
    _ = (t.num:ℚ) := div_mul_cancel₀ _ (ne_of_gt hden)
  have ht2 : 1 / (t.den : ℚ) ≤ t := by
    rw [div_le_iff₀ hden, hmul]
    exact_mod_cast hnum
  have hpow : (t.den : ℚ) ≤ 2 ^ t.den := by
    exact_mod_cast (Nat.lt_two_pow t.den).le
  have hpos2 : (0:ℚ) < 2 ^ t.den := by positivity
  have h1 : (1:ℚ) ≤ t * 2 ^ t.den := by
    have hid : 1 / (t.den:ℚ) * (t.den:ℚ) = 1 := by field_simp
    calc (1:ℚ) = 1 / t.den * t.den := hid.symm
    _ ≤ 1 / t.den * 2 ^ t.den := by
        apply mul_le_mul_of_nonneg_left hpow (by positivity)
    _ ≤ t * 2 ^ t.den := mul_le_mul_of_nonneg_right ht2 (le_of_lt hpos2)
  linarith

/-- C2.  For every positive tempo factor `t` the stage list built by
`add_atempo_values_to_ffmpeg_args_string` is a single stage `[t]` when
`t ≥ 1/2`, and otherwise a chain of `1/2` stages followed by one residual
stage in `[1/2, 1)`; in both cases the product of the stages is exactly `t`
(exact over `ℚ`, hence within the claimed `1e-6`). -/
theorem atempo_stage_list_correct (t : ℚ) (ht : 0 < t) :
    (1/2 ≤ t → add_atempo_values_to_ffmpeg_args_string_tempos t = [t]) ∧
    (t < 1/2 → ∃ k : ℕ, 1 ≤ k ∧
      add_atempo_values_to_ffmpeg_args_string_tempos t
          = List.replicate k (1/2) ++ [t * 2 ^ k] ∧
      1/2 ≤ t * 2 ^ k ∧ t * 2 ^ k < 1) ∧
    (add_atempo_values_to_ffmpeg_args_string_tempos t).prod = t := by
  by_cases hlt : t < 1/2
  · obtain ⟨k, hk1, heq, hlo, hhi⟩ :=
      atempoLoop_spec t.den t [1/2] ht hlt (atempo_fuel_ample t ht)
    have hfull : add_atempo_values_to_ffmpeg_args_string_tempos t
        = List.replicate k (1/2) ++ [t * 2 ^ k] := by
      unfold add_atempo_values_to_ffmpeg_args_string_tempos
      rw [if_pos hlt, heq]
      have hrep : [(1:ℚ)/2] ++ List.replicate (k - 1) ((1:ℚ)/2)
          = List.replicate k ((1:ℚ)/2) := by
        rw [List.singleton_append]
        rw [show ((1:ℚ)/2 :: List.replicate (k - 1) ((1:ℚ)/2))
            = List.replicate (k - 1 + 1) ((1:ℚ)/2) from rfl]
        congr 1
        omega
      rw [hrep]
    have hprod : ((1:ℚ)/2) ^ k * (t * 2 ^ k) = t := by
      field_simp
    refine ⟨fun h => absurd hlt (not_lt.mpr h),
      fun _ => ⟨k, hk1, hfull, hlo, hhi⟩, ?_⟩
    rw [hfull, List.prod_append, List.prod_replicate, List.prod_singleton, hprod]
  · have heq : add_atempo_values_to_ffmpeg_args_string_tempos t = [t] := by
      unfold add_atempo_values_to_ffmpeg_args_string_tempos
      rw [if_neg hlt]
    exact ⟨fun _ => heq, fun h => absurd h hlt, by rw [heq]; simp⟩

/-- Witness for C2 at the concrete tempo factor `1/5` (speed 20 percent):
two chained halves and residual `4/5`, multiplying back to `1/5`. -/
theorem atempo_stage_list_correct_witness :
    (0:ℚ) < 1/5 ∧ (add_atempo_values_to_ffmpeg_args_string_tempos (1/5)).prod = 1/5 :=
  ⟨by norm_num, (atempo_stage_list_correct (1/5) (by norm_num)).2.2⟩

/-! ### FFmpeg conversion (helpers.py, `ffmpeg_convert_from_file` and
`async_ffmpeg_convert_from_audio_segment`)

`ffmpeg_convert_from_file` builds
`ffmpeg_cmd = ["ffmpeg", "-i", file_path, *ffmpeg_args.split()]`, determines
the output path, deletes a pre-existing file at the output path, runs the
subprocess, and on the default-suffix path renames the output over the
input.  The local variable `converted_file_path` is assigned only on some
branches; reading it unassigned raises `UnboundLocalError`, and the
catch-all `except Exception` handler then raises a second
`UnboundLocalError` of its own because it logs the local
`ffmpeg_cmd_string`, which is assigned only later (line 615) - so the
exception escapes to the caller.
-/

/-- Python exceptions that the modelled code can let escape to a caller. -/
inductive PyErr where
  | unboundLocalError : PyErr
  | keyError : PyErr
  | attributeError : PyErr
deriving DecidableEq, Repr

/-- String constant for the pattern `.mp3`. -/
def DOT_MP3 : List Char := ls ".mp3"

/-- String constant for the replacement `_converted.mp3`. -/
def CONVERTED_MP3 : List Char := ls "_converted.mp3"

/-- Value of the local `converted_file_path` at line 605 of helpers.py, as
an `Option` (`none` = never assigned).  Mirrors, in order:
`ffmpeg_cmd.index("-f")` (`ValueError` caught, default `_converted` suffix);
the guard `index >= 0 and len(ffmpeg_args) >= index`, which compares the
length of the argument *string* with the index in the token list (when
false, nothing is assigned); `ffmpeg_cmd[index+1]` (`IndexError` caught,
default suffix); and the `file_extension != "mp3"` guard (when equal,
nothing is assigned). -/
def convertedPathOpt (file_path ffmpeg_args : List Char) : Option (List Char) :=
  let cmd : List (List Char) := [ls "ffmpeg", ls "-i", file_path] ++ pySplit ffmpeg_args
  match cmd.indexOf? (ls "-f") with
  | none => some (replaceAll DOT_MP3 CONVERTED_MP3 file_path)
  | some idx =>
    if ffmpeg_args.length ≥ idx then
      match cmd.get? (idx + 1) with
      | none => some (replaceAll DOT_MP3 CONVERTED_MP3 file_path)
      | some ext =>
        if ext ≠ ls "mp3" then
          some (replaceAll DOT_MP3 (Char.ofNat 46 :: ext) file_path)
        else none
    else none

/-- Output path computed by `ffmpeg_convert_from_file` (helpers.py lines
593-606), including the final collision check
`if converted_file_path == file_path`.  The `none` case of
`convertedPathOpt` is the escaping `UnboundLocalError` described above. -/
def computeConvertedPath (file_path ffmpeg_args : List Char) :
    Except PyErr (List Char) :=
  match convertedPathOpt file_path ffmpeg_args with
  | none => Except.error PyErr.unboundLocalError
  | some c =>
    Except.ok (if c = file_path then replaceAll DOT_MP3 CONVERTED_MP3 file_path else c)

/-- C3 counterexample.  For the input path `a.wav` (no `.mp3` substring) and
argument string `-f wav`, every `str.replace(".mp3", ...)` is a no-op, so
the computed output path equals the input path; the forced `_converted`
fallback is a no-op on this path as well and does not rescue the
collision. -/
theorem ffmpeg_output_path_collision_counterexample :
    computeConvertedPath (ls "a.wav") (ls "-f wav") = Except.ok (ls "a.wav") := by
  rfl

/-- C3 amended.  Whenever the input path contains `.mp3` as a substring and
`ffmpeg_convert_from_file` computes an output path at all (for the requested
format `mp3` it raises instead of computing one), the output path differs
from the input path. -/
theorem ffmpeg_output_path_ne_input (file_path ffmpeg_args c : List Char)
    (hmp3 : containsSub DOT_MP3 file_path = true)
    (hok : computeConvertedPath file_path ffmpeg_args = Except.ok c) :
    c ≠ file_path := by
  have hpat : DOT_MP3 ≠ [] := by decide
  have hdef : replaceAll DOT_MP3 CONVERTED_MP3 file_path ≠ file_path :=
    replaceAll_ne _ _ _ hpat (by decide) hmp3
  unfold computeConvertedPath at hok
  rcases hc0 : convertedPathOpt file_path ffmpeg_args with _ | c0
  · rw [hc0] at hok
    exact absurd hok (by simp)
  · rw [hc0] at hok
    simp only [Except.ok.injEq] at hok
    subst hok
    by_cases hcoll : c0 = file_path
    · rw [if_pos hcoll]
      exact hdef
    · rw [if_neg hcoll]
      exact hcoll

/-- Witness for the amended C3 at the path `a.mp3` with arguments
`-f wav`: the computed path `a.wav` differs from the input. -/
theorem ffmpeg_output_path_ne_input_witness :
    containsSub DOT_MP3 (ls "a.mp3") = true ∧
    computeConvertedPath (ls "a.mp3") (ls "-f wav") = Except.ok (ls "a.wav") ∧
    ls "a.wav" ≠ ls "a.mp3" :=
  ⟨by decide, by rfl,
    ffmpeg_output_path_ne_input (ls "a.mp3") (ls "-f wav") (ls "a.wav")
      (by decide) (by rfl)⟩

/-- Behaviour of the external ffmpeg process: its exit code, and whether it
created (or partially wrote) a file at the output path before exiting. -/
structure FfmpegBehavior where
  returncode : ℤ
  createsOutput : Bool
deriving DecidableEq, Repr

/-- Python return value of `ffmpeg_convert_from_file`: `False`, or a path
string. -/
inductive ConvResult where
  | fail : ConvResult
  | path : List Char → ConvResult
deriving DecidableEq, Repr

/-- Filesystem model: the list of paths that currently exist. -/
abbrev FS := List (List Char)

/-- Test for `os.path.exists`. -/
def fsExists (fs : FS) (p : List Char) : Bool := decide (p ∈ fs)

/-- Effect of creating a file (idempotent). -/
def addFile (fs : FS) (p : List Char) : FS := if p ∈ fs then fs else p :: fs

/-- Effect of `os.remove` (the model always succeeds). -/
def removeFile (fs : FS) (p : List Char) : FS := fs.filter (fun q => decide (q ≠ p))

/-- Embedding of `ffmpeg_convert_from_file(file_path, ffmpeg_args)`
(helpers.py lines 578-652) over the filesystem model, with the process
behaviour as an oracle.  Branches in source order: missing source file
returns `False`; output-path computation (see `computeConvertedPath`; its
error is the escaping `UnboundLocalError`); deletion of a pre-existing
output file; the subprocess run (which creates the output file when the
oracle says so); non-zero exit returns `False` without any cleanup; on the
default-suffix path `shutil.move` renames output over input (a missing
output makes `move` raise, caught, returning `False`); otherwise the
computed path is returned. -/
def ffmpeg_convert_from_file (beh : FfmpegBehavior) (fs : FS)
    (file_path ffmpeg_args : List Char) : Except PyErr (FS × ConvResult) :=
  if fsExists fs file_path = false then Except.ok (fs, ConvResult.fail)
  else
    match computeConvertedPath file_path ffmpeg_args with
    | Except.error e => Except.error e
    | Except.ok conv =>
      let fs₁ := removeFile fs conv
      let fs₂ := if beh.createsOutput then addFile fs₁ conv else fs₁
      if beh.returncode ≠ 0 then Except.ok (fs₂, ConvResult.fail)
      else if conv = replaceAll DOT_MP3 CONVERTED_MP3 file_path then
        if fsExists fs₂ conv then
          Except.ok (addFile (removeFile fs₂ conv) file_path, ConvResult.path file_path)
        else Except.ok (fs₂, ConvResult.fail)
      else Except.ok (fs₂, ConvResult.path conv)

/-- Oracles for `async_ffmpeg_convert_from_audio_segment`: the process
behaviour, whether `async_save_audio_to_folder` succeeds, and what
`async_load_audio` yields for a path (`none` models a load exception, which
the source catches). -/
structure ConvEnv where
  beh : FfmpegBehavior
  saveOk : Bool
  load : List Char → Option ℕ

/-- Fixed temp file name used by the source (helpers.py line 542). -/
def TEMP_SEGMENT : List Char := ls "/temp_segment.mp3"

/-- Embedding of `async_ffmpeg_convert_from_audio_segment(audio_segment,
ffmpeg_args, folder)` (helpers.py lines 532-576).  Audio buffers are opaque
tags (`ℕ`); `none` is a missing buffer.  Branches in source order: early
return when the buffer, the argument string or the folder is absent; saving
the temp file (failure returns the buffer unchanged); the conversion call,
whose escaping exception propagates - the call at line 553 is not inside
any `try`; loading the converted file when the result is a path of length
at least 5 (a failed load keeps the original buffer); and the cleanup loop,
which removes the temp file and the converted file but skips the
non-string `False` result of a failed conversion. -/
def async_ffmpeg_convert_from_audio_segment (env : ConvEnv) (fs : FS)
    (audio : Option ℕ) (ffmpeg_args folder : List Char) :
    Except PyErr (FS × Option ℕ) :=
  if audio = none ∨ ffmpeg_args = [] ∨ folder = [] then Except.ok (fs, audio)
  else
    let temp := folder ++ TEMP_SEGMENT
    if env.saveOk = false then Except.ok (fs, audio)
    else
      let fs₁ := addFile fs temp
      match ffmpeg_convert_from_file env.beh fs₁ temp ffmpeg_args with
      | Except.error e => Except.error e
      | Except.ok (fs₂, res) =>
        let ret : Option ℕ :=
          match res with
          | ConvResult.fail => audio
          | ConvResult.path p =>
            if p.length < 5 then audio
            else match env.load p with
              | some a => some a
              | none => audio
        let fs₃ := removeFile fs₂ temp
        let fs₄ :=
          match res with
          | ConvResult.fail => fs₃
          | ConvResult.path p => removeFile fs₃ p
        Except.ok (fs₄, ret)

/-- C1.  Evaluation of the conversion operation at the failing input: with a
present buffer, the argument string `-f mp3` (requested output format equal
to the input extension) and scratch folder `tmp`, the operation raises
`UnboundLocalError` to its caller instead of returning the original buffer:
`converted_file_path` is never assigned, and the catch-all handler crashes
on the also-unassigned `ffmpeg_cmd_string`. -/
theorem ffmpeg_convert_raises_on_f_mp3 :
    async_ffmpeg_convert_from_audio_segment
        ⟨⟨0, false⟩, true, fun _ => none⟩ [] (some 7) (ls "-f mp3") (ls "tmp")
      = Except.error PyErr.unboundLocalError := by
  rfl

/-- C4 counterexample.  A conversion in which the transcoder exits with code
1 after creating a partial output file: after the operation returns, the
temp source file is gone but the partial output
`tmp/temp_segment_converted.mp3` is still on the filesystem, because
`ffmpeg_convert_from_file` returns `False` on non-zero exit without deleting
the output, and the cleanup loop of the caller skips the non-string `False`
value. -/
theorem ffmpeg_failed_conversion_leaves_artifact :
    async_ffmpeg_convert_from_audio_segment
        ⟨⟨1, true⟩, true, fun _ => none⟩ [] (some 3) (ls "-af atempo=0.5") (ls "tmp")
      = Except.ok ([ls "tmp/temp_segment_converted.mp3"], some 3) := by
  rfl

/-- Membership after `addFile`. -/
theorem mem_addFile_self (fs : FS) (p : List Char) : p ∈ addFile fs p := by
  unfold addFile
  split
  · assumption
  · exact List.mem_cons_self _ _

/-- A removed path no longer exists. -/
theorem not_mem_removeFile_self (fs : FS) (p : List Char) : p ∉ removeFile fs p := by
  unfold removeFile
  intro h
  have := List.of_mem_filter h
  simp at this

/-- Other paths survive `removeFile`. -/
theorem mem_removeFile_of_ne (fs : FS) (p q : List Char)
    (hq : q ∈ fs) (hne : q ≠ p) : q ∈ removeFile fs p := by
  unfold removeFile
  exact List.mem_filter.mpr ⟨hq, by simpa using hne⟩

/-- The path just added exists. -/
theorem fsExists_addFile_self (fs : FS) (p : List Char) :
    fsExists (addFile fs p) p = true := by
  simp [fsExists, mem_addFile_self]

/-- A substring of the suffix is a substring of the whole. -/
theorem containsSub_append_right (pat xs ys : List Char)
    (h : containsSub pat ys = true) : containsSub pat (xs ++ ys) = true := by
  induction xs with
  | nil => simpa using h
  | cons x xs ih =>
    simp only [List.cons_append, containsSub, Bool.or_eq_true]
    exact Or.inr ih

/-- C4 amended.  For every conversion in which the external transcoder exits
with a non-zero code (and an output path is computed, i.e. no exception),
the operation returns the original buffer and the temp source file has been
deleted - but a partial output file created by the transcoder at the
computed converted path is NOT deleted: it remains on the filesystem. -/
theorem ffmpeg_failed_conversion_cleanup (env : ConvEnv) (fs : FS) (a : ℕ)
    (ffmpeg_args folder conv : List Char)
    (hargs : ffmpeg_args ≠ []) (hfolder : folder ≠ [])
    (hsave : env.saveOk = true)
    (hrc : env.beh.returncode ≠ 0)
    (hconv : computeConvertedPath (folder ++ TEMP_SEGMENT) ffmpeg_args
        = Except.ok conv) :
    ∃ fsFinal : FS,
      async_ffmpeg_convert_from_audio_segment env fs (some a) ffmpeg_args folder
          = Except.ok (fsFinal, some a) ∧
      (folder ++ TEMP_SEGMENT) ∉ fsFinal ∧
      (env.beh.createsOutput = true → conv ∈ fsFinal) := by
  have htmem : containsSub DOT_MP3 (folder ++ TEMP_SEGMENT) = true :=
    containsSub_append_right DOT_MP3 folder TEMP_SEGMENT (by decide)
  have hne : conv ≠ folder ++ TEMP_SEGMENT :=
    ffmpeg_output_path_ne_input (folder ++ TEMP_SEGMENT) ffmpeg_args conv htmem hconv
  have hex : fsExists (addFile fs (folder ++ TEMP_SEGMENT)) (folder ++ TEMP_SEGMENT)
      = true := fsExists_addFile_self fs _
  have hconvert : ffmpeg_convert_from_file env.beh
      (addFile fs (folder ++ TEMP_SEGMENT)) (folder ++ TEMP_SEGMENT) ffmpeg_args
      = Except.ok
          ((if env.beh.createsOutput then
              addFile (removeFile (addFile fs (folder ++ TEMP_SEGMENT)) conv) conv
            else removeFile (addFile fs (folder ++ TEMP_SEGMENT)) conv),
           ConvResult.fail) := by
    simp [ffmpeg_convert_from_file, hex, hconv, hrc]
  refine ⟨removeFile (if env.beh.createsOutput then
      addFile (removeFile (addFile fs (folder ++ TEMP_SEGMENT)) conv) conv
    else removeFile (addFile fs (folder ++ TEMP_SEGMENT)) conv)
      (folder ++ TEMP_SEGMENT), ?_, ?_, ?_⟩
  · simp only [async_ffmpeg_convert_from_audio_segment]
    rw [if_neg (by simp [hargs, hfolder])]
    rw [if_neg (by simp [hsave])]
    rw [hconvert]
  · exact not_mem_removeFile_self _ _
  · intro hcreate
    apply mem_removeFile_of_ne _ _ _ _ hne
    rw [if_pos hcreate]
    exact mem_addFile_self _ _

/-- Witness for the amended C4: a concrete failed conversion (exit code 1,
partial output written) ends with the temp file gone, the original buffer
returned, and the partial artifact still present. -/
theorem ffmpeg_failed_conversion_cleanup_witness :
    ∃ fsFinal : FS,
      async_ffmpeg_convert_from_audio_segment
          ⟨⟨1, true⟩, true, fun _ => none⟩ [] (some 5) (ls "-x") (ls "tmp")
          = Except.ok (fsFinal, some 5) ∧
      (ls "tmp" ++ TEMP_SEGMENT) ∉ fsFinal ∧
      ((true : Bool) = true → ls "tmp/temp_segment_converted.mp3" ∈ fsFinal) :=
  ffmpeg_failed_conversion_cleanup ⟨⟨1, true⟩, true, fun _ => none⟩ [] 5
    (ls "-x") (ls "tmp") (ls "tmp/temp_segment_converted.mp3")
    (by decide) (by decide) rfl (by decide) (by rfl)

/-! ### Audio combination (helpers.py, `combine_audio` and `overlay`)

Audio buffers (pydub `AudioSegment`) are lists of integer samples, one per
millisecond.  `a + b` is concatenation, `AudioSegment.silent(d)` is `d`
zeros, slicing `b[d:]` is `List.drop`, and `a.overlay(b, position=p)` mixes
`b` additively (with 16-bit saturation) on top of `a` from position `p`,
never extending `a`.
-/

/-- Additive mix of two samples with 16-bit saturation, as pydub performs
for two-byte sample widths. -/
def mixSample (x y : ℤ) : ℤ := max (-32768) (min 32767 (x + y))

/-- pydub `audio_1.overlay(audio_2, position=pos)`: the prefix of `audio_1`
before `pos`, then the mixed region (truncated so the output never exceeds
`audio_1`), then the rest of `audio_1`. -/
def overlayAt (audio_1 audio_2 : List ℤ) (pos : ℕ) : List ℤ :=
  audio_1.take pos
    ++ List.zipWith mixSample (audio_1.drop pos) audio_2
    ++ audio_1.drop (pos + audio_2.length)

/-- Embedding of `overlay(audio_1, audio_2, overlay)` (helpers.py lines
744-753): `overlay = abs(overlay)`, `overlap_point = max(0, len(audio_1) -
overlay)`, the pydub overlay at that position, and the unmixed tail
`audio_2[overlay:]` appended when `audio_2` is longer than the overlap. -/
def overlay (audio_1 audio_2 : List ℤ) (ov : ℤ) : List ℤ :=
  let ovn := ov.natAbs
  let overlap_point : ℕ := ((audio_1.length : ℤ) - ovn).toNat
  let crossover_audio := overlayAt audio_1 audio_2 overlap_point
  if audio_2.length > ovn then crossover_audio ++ audio_2.drop ovn
  else crossover_audio

/-- Embedding of `combine_audio(audio_1, audio_2, offset)` (helpers.py lines
722-742): identity on an absent operand, overlay for a negative offset,
interposed silence for a positive offset, plain concatenation otherwise. -/
def combine_audio (audio_1 audio_2 : Option (List ℤ)) (offset : ℤ) :
    Option (List ℤ) :=
  match audio_1, audio_2 with
  | none, a2 => a2
  | some a1, none => some a1
  | some a1, some a2 =>
    if offset < 0 then some (overlay a1 a2 offset)
    else if offset > 0 then
      some (a1 ++ (List.replicate offset.toNat 0 ++ a2))
    else some (a1 ++ a2)

/-- C5.  For non-absent buffers, combining with offset `0` concatenates
(length `len a + len b`) and combining with a positive delay `d` inserts
`d` milliseconds of silence (length `len a + d + len b`). -/
theorem combine_audio_length (a b : List ℤ) (d : ℤ) :
    (List.length <$> combine_audio (some a) (some b) 0
        = some (a.length + b.length)) ∧
    (0 < d →
      List.length <$> combine_audio (some a) (some b) d
        = some (a.length + d.toNat + b.length)) := by
  constructor
  · simp [combine_audio]
  · intro hd
    have h1 : ¬ (d < 0) := by omega
    simp [combine_audio, h1, hd]
    omega

/-- Witness for C5 at `a = [1]`, `b = [2, 3]`, `d = 4`. -/
theorem combine_audio_length_witness :
    (0:ℤ) < 4 ∧
    List.length <$> combine_audio (some [(1:ℤ)]) (some [2, 3]) 4 = some 7 :=
  ⟨by norm_num, by
    have h := (combine_audio_length [(1:ℤ)] [2, 3] 4).2 (by norm_num)
    simpa using h⟩

/-- C6.  For non-absent buffers and `0 < d ≤ len a`, the overlay
`combine_audio(a, b, -d)` keeps the first `len a - d` milliseconds of `a`
untouched (no truncation before the overlap point), mixes `b` on top of `a`
only from the overlap point `len a - d` onward, and appends the tail of `b`
beyond `d` unmixed. -/
theorem combine_audio_overlay_spec (a b : List ℤ) (d : ℕ)
    (hd : 0 < d) (hle : d ≤ a.length) :
    combine_audio (some a) (some b) (-(d : ℤ))
        = some (a.take (a.length - d)
            ++ List.zipWith mixSample (a.drop (a.length - d)) b
            ++ a.drop (a.length - d + b.length)
            ++ b.drop d) ∧
    (a.take (a.length - d)
        ++ List.zipWith mixSample (a.drop (a.length - d)) b
        ++ a.drop (a.length - d + b.length)
        ++ b.drop d).take (a.length - d) = a.take (a.length - d) := by
  have hofs : (-(d : ℤ)) < 0 := by omega
  have habs : (-(d : ℤ)).natAbs = d := by omega
  have hpos : ((a.length : ℤ) - (d : ℤ)).toNat = a.length - d := by
    omega
  constructor
  · simp only [combine_audio, if_pos hofs, overlay, habs, hpos, overlayAt,
      Option.some.injEq]
    by_cases hb : b.length > d
    · rw [if_pos hb]
    · rw [if_neg hb]
      rw [List.drop_eq_nil_of_le (by omega : b.length ≤ d)]
      rw [List.append_nil]
  · have hlen : (a.take (a.length - d)).length = a.length - d := by
      rw [List.length_take]
      omega
    rw [List.append_assoc, List.append_assoc]
    exact List.take_left' hlen

/-- Witness for C6 at `a = [10, 20, 30]`, `b = [1, 2]`, `d = 2`: the prefix
`[10]` is preserved, `b` is mixed from position `1`, nothing of `b` is
appended (`len b = d`). -/
theorem combine_audio_overlay_spec_witness :
    0 < 2 ∧ 2 ≤ ([10, 20, 30] : List ℤ).length ∧
    combine_audio (some ([10, 20, 30] : List ℤ)) (some [1, 2]) (-(2 : ℤ))
        = some [10, 21, 32] :=
  ⟨by norm_num, by norm_num, by
    have h := (combine_audio_overlay_spec [10, 20, 30] [1, 2] 2
      (by norm_num) (by norm_num)).1
    simpa [mixSample] using h⟩

/-- C10.  For non-absent buffers and `d > len a`, the overlap point clamps
to `0`: the output is `b` mixed onto `a` from position `0` (truncated to
`len a`) followed by the unmixed part of `a` beyond `len b` and the tail of
`b` beyond `d`; its length is `len a + max 0 (len b - d)`, and the samples
of `b` between `len a` and `d` appear nowhere in the output. -/
theorem combine_audio_overlay_clamped (a b : List ℤ) (d : ℕ)
    (hgt : a.length < d) :
    combine_audio (some a) (some b) (-(d : ℤ))
        = some (List.zipWith mixSample a b ++ a.drop b.length ++ b.drop d) ∧
    (List.zipWith mixSample a b ++ a.drop b.length ++ b.drop d).length
        = a.length + (b.length - d) := by
  have hofs : (-(d : ℤ)) < 0 := by omega
  have habs : (-(d : ℤ)).natAbs = d := by omega
  have hpos : ((a.length : ℤ) - (d : ℤ)).toNat = 0 := by
    omega
  constructor
  · simp only [combine_audio, if_pos hofs, overlay, habs, hpos, overlayAt,
      List.take_zero, List.drop_zero, List.nil_append, Nat.zero_add,
      Option.some.injEq]
    by_cases hb : b.length > d
    · rw [if_pos hb]
    · rw [if_neg hb]
      rw [List.drop_eq_nil_of_le (by omega : b.length ≤ d)]
      rw [List.append_nil]
  · simp only [List.length_append, List.length_zipWith, List.length_drop]
    omega

/-- Witness for C10 at `a = [5]`, `b = [1, 2, 3, 4]`, `d = 3`: output is
`[mix 5 1] ++ [] ++ [4]`; the samples of `b` at indices `1` and `2`
(between `len a = 1` and `d = 3`) appear nowhere. -/
theorem combine_audio_overlay_clamped_witness :
    ([5] : List ℤ).length < 3 ∧
    combine_audio (some ([5] : List ℤ)) (some [1, 2, 3, 4]) (-(3 : ℤ))
        = some [6, 4] :=
  ⟨by norm_num, by
    have h := (combine_audio_overlay_clamped [5] [1, 2, 3, 4] 3 (by norm_num)).1
    simpa [mixSample] using h⟩

/-! ### Volume fade (media_player.py, `async_set_volume_for_media_players`)

A media player dict carries its entity id, the resolved target volume
(`media_player_dict.get(str(volume_key), volume_key)`), and the
`volume_steps` entry, which is absent until the first-step initialisation
writes it.  The hass volume state is an association list (every entity id of
the request is assumed present, as the source dereferences
`hass.states.get(entity_id)` unconditionally); a successful
`volume_set` service call updates it.  Sleeps are irrelevant to the claims
and elided.
-/

/-- Modelled from the spec: the fixed fade step interval
`TRANSITION_STEP_MS` lives in the `const` module, which is not part of the
sources; section 4.5 of the specification fixes it as the configured step
interval, "e.g. 500 ms". -/
def TRANSITION_STEP_MS : ℚ := 500

/-- Python `round(x, 4)` up to tie-breaking (the model rounds ties away
from the float banker's rounding; no claim exercises a tie). -/
def round4 (q : ℚ) : ℚ := round (q * 10000) / 10000

/-- One media player dict, as used by the fade loop. -/
structure MPDict where
  entity_id : ℕ
  target_volume : ℚ
  volume_steps : Option (List ℚ)
deriving DecidableEq, Repr

/-- Volume state of the live entities. -/
abbrev Vols := List (ℕ × ℚ)

/-- Current volume: `hass.states.get(id).attributes.get(volume_level, 0)`. -/
def getVol (vols : Vols) (id : ℕ) : ℚ := (vols.lookup id).getD 0

/-- Effect of a successful `media_player.volume_set` call. -/
def setVol (vols : Vols) (id : ℕ) (q : ℚ) : Vols :=
  vols.map (fun p => if p.1 = id then (p.1, q) else p)

/-- Body of the per-device work inside one fade step (media_player.py lines
314-354).  In source order: skip when the target equals the current volume
on step 0; skip when the target is the `-1` sentinel; on step 0 compute and
store the intermediate `volume_steps` (indices `1 .. fade_steps-1`); then
read `media_player_dict["volume_steps"]` - a `KeyError` when the key was
never stored - and issue the volume command. -/
def fadeStepDevice (fade_steps step : ℕ) (vols : Vols) (cmds : List (ℕ × ℚ))
    (d : MPDict) : Except PyErr (MPDict × Vols × List (ℕ × ℚ)) :=
  let current := getVol vols d.entity_id
  if d.target_volume = current ∧ step = 0 then Except.ok (d, vols, cmds)
  else if d.target_volume = -1 then Except.ok (d, vols, cmds)
  else
    let d₁ :=
      if step = 0 then
        { d with volume_steps := some ((List.range' 1 (fade_steps - 1)).map
            (fun i => current + (d.target_volume - current) / fade_steps * i)) }
      else d
    match d₁.volume_steps with
    | none => Except.error PyErr.keyError
    | some steps =>
      let base := if steps.length > step then steps.getD step 0 else d₁.target_volume
      let new_volume := round4 (max base 0)
      Except.ok (d₁, setVol vols d₁.entity_id new_volume,
        cmds ++ [(d₁.entity_id, new_volume)])

/-- One full fade step over the device list. -/
def fadeStepPass (fade_steps step : ℕ) :
    List MPDict → Vols → List (ℕ × ℚ) →
    Except PyErr (List MPDict × Vols × List (ℕ × ℚ))
  | [], vols, cmds => Except.ok ([], vols, cmds)
  | d :: ds, vols, cmds =>
    match fadeStepDevice fade_steps step vols cmds d with
    | Except.error e => Except.error e
    | Except.ok (d₁, vols₁, cmds₁) =>
      match fadeStepPass fade_steps step ds vols₁ cmds₁ with
      | Except.error e => Except.error e
      | Except.ok (ds₁, vols₂, cmds₂) => Except.ok (d₁ :: ds₁, vols₂, cmds₂)

/-- The `for step in range(0, fade_steps)` loop. -/
def fadeLoop (fade_steps : ℕ) :
    ℕ → ℕ → List MPDict → Vols → List (ℕ × ℚ) →
    Except PyErr (Vols × List (ℕ × ℚ))
  | 0, _, _, vols, cmds => Except.ok (vols, cmds)
  | left + 1, step, devs, vols, cmds =>
    match fadeStepPass fade_steps step devs vols cmds with
    | Except.error e => Except.error e
    | Except.ok (devs₁, vols₁, cmds₁) => fadeLoop fade_steps left (step + 1) devs₁ vols₁ cmds₁

/-- Direct branch (`fade_steps <= 1`, media_player.py lines 357-378): one
immediate `volume_set` per device whose target is non-negative and differs
from its current volume. -/
def fadeDirectPass : List MPDict → Vols → List (ℕ × ℚ) → Vols × List (ℕ × ℚ)
  | [], vols, cmds => (vols, cmds)
  | d :: ds, vols, cmds =>
    let current := getVol vols d.entity_id
    if d.target_volume ≥ 0 ∧ d.target_volume ≠ current then
      fadeDirectPass ds (setVol vols d.entity_id d.target_volume)
        (cmds ++ [(d.entity_id, d.target_volume)])
    else fadeDirectPass ds vols cmds

/-- Embedding of `async_set_volume_for_media_players(media_player_dicts,
volume_key, fade_duration)` (media_player.py lines 303-378).
`fade_duration` is in milliseconds; the source converts it to seconds and
computes `fade_steps = ceil(seconds*1000 / TRANSITION_STEP_MS)` when the
duration is positive, else `1`.  Returns the final volume state and the
issued `(entity, volume)` commands, or the escaping exception. -/
def async_set_volume_for_media_players (devs : List MPDict) (vols : Vols)
    (fade_duration_ms : ℚ) : Except PyErr (Vols × List (ℕ × ℚ)) :=
  if devs.length = 0 then Except.ok (vols, [])
  else
    let fade_steps : ℕ :=
      if fade_duration_ms / 1000 > 0 then ⌈fade_duration_ms / TRANSITION_STEP_MS⌉.toNat
      else 1
    if fade_steps > 1 then fadeLoop fade_steps fade_steps 0 devs vols []
    else Except.ok (fadeDirectPass devs vols [])

/-- C7.  Evaluation of the fade at the failing input: a single device whose
resolved target volume (`1/2`) equals its current volume, faded over
1000 ms (two steps).  Step 0 skips the device via `continue`, so
`volume_steps` is never stored; on step 1 the skip guard no longer applies
and `media_player_dict["volume_steps"]` raises `KeyError`, aborting the
whole fade instead of issuing zero intermediate commands and completing. -/
theorem fade_target_eq_current_keyerror :
    async_set_volume_for_media_players
        [⟨0, 1/2, none⟩] [(0, 1/2)] 1000 = Except.error PyErr.keyError := by
  have hceil : (⌈(1000 : ℚ) / TRANSITION_STEP_MS⌉) = 2 := by
    norm_num [TRANSITION_STEP_MS]
  have hsteps : (if (1000 : ℚ) / 1000 > 0
      then (⌈(1000 : ℚ) / TRANSITION_STEP_MS⌉).toNat else 1) = 2 := by
    rw [if_pos (by norm_num), hceil]
    rfl
  simp only [async_set_volume_for_media_players, hsteps]
  norm_num [fadeLoop, fadeStepPass, fadeStepDevice, getVol, List.lookup]

/-! ### Polling waiters (media_player.py, `_async_wait_until_media_players`
and `async_wait_until_media_player_volume_level`)

Devices are entity ids (`ℕ`).  The predicate receives the round number so
that live hass state may change between polls; `cond r x` is the predicate
evaluated on device `x` during round `r`.  Sleeps are elided.

The timeout budget of the source is a Python (binary64) float, decremented
by `timeout = timeout - delay` with the float literal `0.2`.  The loops
below therefore abstract the budget: `pos` is the `timeout > 0` test and
`sub` the decrement.  The faithful instantiation is `floatPos` /
`floatBudgetSub`, where binary64 values are pairs mantissa * 2 ^ exponent
and subtraction is the exact difference rounded to 53 significant bits,
round half to even (normal range; no overflow or subnormal rounding occurs
at the values involved here).  The idealised exact-rational instantiation
`ratPos` / `ratBudgetSub` subtracts 1/5 exactly.  The fuel argument only
bounds the recursion of the embedded `while` loop: the zero-fuel exit
coincides with the loop exit, and the theorems below prove the result
independent of any sufficient fuel.
-/

/-- Poll interval (media_player.py lines 250 and 271), as an exact
rational. -/
def WAIT_DELAY : ℚ := 1/5

/-- Round budget `⌈t / d⌉` for a poll interval `d`. -/
def ceilRounds (d t : ℚ) : ℕ := (⌈t / d⌉).toNat

/-- The ideal round budget `⌈t / 0.2⌉` asserted by the claim. -/
def nRounds (t : ℚ) : ℕ := ceilRounds WAIT_DELAY t

/-- One pass of `for media_player_dict in still_waiting` with in-place
deletion of satisfied entries (media_player.py lines 253-257).  Python
list iteration is by an internal index that keeps advancing after a
deletion, so the element following a deleted one is skipped this round;
deletion itself is `del still_waiting[still_waiting.index(elem)]`
(first equal element). -/
def pollGo (cond : ℕ → Bool) : ℕ → List ℕ → ℕ → List ℕ
  | 0, l, _ => l
  | fuel + 1, l, p =>
    match l.get? p with
    | none => l
    | some x =>
      if cond x then pollGo cond fuel (l.eraseIdx (l.indexOf x)) (p + 1)
      else pollGo cond fuel l (p + 1)

/-- One polling round: the internal iteration index starts at `0` and makes
at most `l.length` fetches. -/
def pollPass (cond : ℕ → Bool) (l : List ℕ) : List ℕ := pollGo cond l.length l 0

/-- Exit record of the shared waiter loop: the returned boolean
(`len(still_waiting) == 0`), the number of rounds executed, and the
`still_waiting` list at exit. -/
structure WaitResult where
  result : Bool
  rounds : ℕ
  pending : List ℕ
deriving DecidableEq, Repr

/-- A binary64 float as an unnormalised mantissa-exponent pair, with value
`m * 2 ^ e`. -/
structure F64 where
  m : ℤ
  e : ℤ
deriving DecidableEq, Repr

/-- Rational power of two with integer exponent. -/
def pow2 (e : ℤ) : ℚ := 2 ^ e

/-- Exact rational value of a binary64 pair. -/
def F64.toRat (x : F64) : ℚ := (x.m : ℚ) * pow2 x.e

/-- Fuel-indexed bit length of a natural number (the fuel 4400 far exceeds
any bit length arising from binary64 operands). -/
def bitlenGo : ℕ → ℕ → ℕ
  | 0, _ => 0
  | fuel + 1, n => if n = 0 then 0 else bitlenGo fuel (n / 2) + 1

/-- Bit length of a natural number. -/
def bitlen (n : ℕ) : ℕ := bitlenGo 4400 n

/-- Round the positive value `a * 2 ^ k` to at most 53 significant bits,
round half to even: the binary64 significand rounding. -/
def roundMantissa (a : ℕ) (k : ℤ) : ℕ × ℤ :=
  let n := bitlen a
  if n ≤ 53 then (a, k)
  else
    let s := n - 53
    let q := a / 2 ^ s
    let r := a % 2 ^ s
    let half := 2 ^ (s - 1)
    let q2 :=
      if r < half then q
      else if half < r then q + 1
      else if q % 2 = 0 then q else q + 1
    (q2, k + s)

/-- IEEE binary64 subtraction on mantissa-exponent pairs: the exact
difference, correctly rounded to 53 significant bits (round to nearest,
ties to even).  Valid for results in the normal range, which covers every
value reached by the timeout budgets considered here. -/
def f64Sub (x y : F64) : F64 :=
  let k := min x.e y.e
  let a := x.m * 2 ^ (x.e - k).toNat
  let b := y.m * 2 ^ (y.e - k).toNat
  let dm := a - b
  if dm = 0 then ⟨0, 0⟩
  else
    let p := roundMantissa dm.natAbs k
    if 0 < dm then ⟨(p.1 : ℤ), p.2⟩ else ⟨-(p.1 : ℤ), p.2⟩

/-- The binary64 value of the Python float literal `0.2`
(media_player.py `delay = 0.2`); certified by
`FLOAT_POINT_TWO_correctly_rounded` below. -/
def FLOAT_POINT_TWO : F64 := ⟨3602879701896397, -54⟩

/-- `FLOAT_POINT_TWO` is the binary64 value nearest to `1/5`: it lies in
the binade `[1/8, 1/4)`, where consecutive binary64 values are `2 ^ (-55)`
apart, and its distance to `1/5` is below half that spacing. -/
theorem FLOAT_POINT_TWO_correctly_rounded :
    (1:ℚ)/8 ≤ F64.toRat FLOAT_POINT_TWO ∧
    F64.toRat FLOAT_POINT_TWO < 1/4 ∧
    |F64.toRat FLOAT_POINT_TWO - 1/5| < 1 / 2 ^ 56 := by
  refine ⟨?_, ?_, ?_⟩ <;>
    norm_num [F64.toRat, FLOAT_POINT_TWO, pow2, abs_lt]

/-- The float `timeout > 0` test. -/
def floatPos (t : F64) : Bool := decide (0 < t.m)

/-- The float budget decrement `timeout - 0.2`. -/
def floatBudgetSub (t : F64) : F64 := f64Sub t FLOAT_POINT_TWO

/-- The idealised exact `timeout > 0` test. -/
def ratPos (t : ℚ) : Bool := decide (0 < t)

/-- The idealised exact budget decrement. -/
def ratBudgetSub (t : ℚ) : ℚ := t - WAIT_DELAY

/-- Embedding of the `while len(still_waiting) > 0 and timeout > 0` loop of
`_async_wait_until_media_players` (media_player.py lines 250-267): poll,
then decrement the budget. -/
def waitLoop {B : Type} (pos : B → Bool) (sub : B → B) (cond : ℕ → ℕ → Bool) :
    ℕ → List ℕ → B → ℕ → WaitResult
  | 0, l, _, r => ⟨l.isEmpty, r, l⟩
  | fuel + 1, l, t, r =>
    if 0 < l.length ∧ pos t = true then
      waitLoop pos sub cond fuel (pollPass (cond r) l) (sub t) (r + 1)
    else ⟨l.isEmpty, r, l⟩

/-- Embedding of `_async_wait_until_media_players(media_player_dicts,
condition, timeout)` (media_player.py lines 239-267): the validation block
returns `False` for an empty list and for any entity id that does not
resolve, then the polling loop runs. -/
def asyncWaitUntilMediaPlayers {B : Type} (pos : B → Bool) (sub : B → B)
    (fuel : ℕ) (valid : ℕ → Bool) (cond : ℕ → ℕ → Bool)
    (l : List ℕ) (t : B) : Bool :=
  if l.length = 0 then false
  else if l.all valid = false then false
  else (waitLoop pos sub cond fuel l t 0).result

/-- Python `round(x, 3)` up to tie-breaking, as used by the volume
comparison. -/
def round3 (q : ℚ) : ℚ := round (q * 1000) / 1000

/-- The per-round check of the volume waiter (media_player.py lines
274-283): entities that do not resolve are skipped; the others must match
the target volume after rounding to three decimals. -/
def volCheck (vols : ℕ → ℚ) (valid : ℕ → Bool) (tv : ℚ) (l : List ℕ) : Bool :=
  l.all (fun id => !valid id || decide (round3 (vols id) = round3 tv))

/-- Embedding of the `while not volume_reached and timeout > 0` loop of
`async_wait_until_media_player_volume_level` (media_player.py lines
269-301), returning the boolean result and the number of rounds executed.
A passing check returns `True` immediately; otherwise the budget is
decremented and the loop re-tests.  `vols r id` is the live volume of
entity `id` during round `r`. -/
def volWaitLoop {B : Type} (pos : B → Bool) (sub : B → B)
    (vols : ℕ → ℕ → ℚ) (valid : ℕ → Bool) (tv : ℚ) :
    ℕ → List ℕ → B → ℕ → Bool × ℕ
  | 0, _, _, r => (false, r)
  | fuel + 1, l, t, r =>
    if pos t = true then
      if volCheck (vols r) valid tv l then (true, r + 1)
      else volWaitLoop pos sub vols valid tv fuel l (sub t) (r + 1)
    else (false, r)

/-- The volume waiter itself. -/
def async_wait_until_media_player_volume_level {B : Type}
    (pos : B → Bool) (sub : B → B) (fuel : ℕ) (vols : ℕ → ℕ → ℚ)
    (valid : ℕ → Bool) (tv : ℚ) (l : List ℕ) (t : B) : Bool :=
  (volWaitLoop pos sub vols valid tv fuel l t 0).1

/-- Unfolding equation for `waitLoop`. -/
theorem waitLoop_succ {B : Type} (pos : B → Bool) (sub : B → B)
    (cond : ℕ → ℕ → Bool) (fuel : ℕ) (l : List ℕ) (t : B) (r : ℕ) :
    waitLoop pos sub cond (fuel + 1) l t r
      = if 0 < l.length ∧ pos t = true then
          waitLoop pos sub cond fuel (pollPass (cond r) l) (sub t) (r + 1)
        else ⟨l.isEmpty, r, l⟩ := rfl

/-- Unfolding equation for `volWaitLoop`. -/
theorem volWaitLoop_succ {B : Type} (pos : B → Bool) (sub : B → B)
    (vols : ℕ → ℕ → ℚ) (valid : ℕ → Bool) (tv : ℚ)
    (fuel : ℕ) (l : List ℕ) (t : B) (r : ℕ) :
    volWaitLoop pos sub vols valid tv (fuel + 1) l t r
      = if pos t = true then
          if volCheck (vols r) valid tv l then (true, r + 1)
          else volWaitLoop pos sub vols valid tv fuel l (sub t) (r + 1)
        else (false, r) := rfl

/-- A positive budget allows at least one round. -/
theorem ceilRounds_pos (d t : ℚ) (hd : 0 < d) (ht : 0 < t) :
    1 ≤ ceilRounds d t := by
  unfold ceilRounds
  have h1 : (1 : ℤ) ≤ ⌈t / d⌉ := Int.ceil_pos.mpr (div_pos ht hd)
  omega

/-- Decrementing the budget by at least the interval costs one round. -/
theorem ceilRounds_le_sub (d x y : ℚ) (hd : 0 < d) (h : y ≤ x - d) :
    ceilRounds d y ≤ ceilRounds d x - 1 := by
  unfold ceilRounds
  have hkey : (x - d) / d = x / d - 1 := by field_simp
  have hdiv : y / d ≤ x / d - 1 := by
    rw [← hkey]
    gcongr
  have hceil : ⌈y / d⌉ ≤ ⌈x / d⌉ - 1 := by
    calc ⌈y / d⌉ ≤ ⌈x / d - 1⌉ := Int.ceil_mono hdiv
    _ = ⌈x / d⌉ - 1 := Int.ceil_sub_one _
  omega

/-- Termination of the shared waiter: whenever a rational measure of the
budget drops by at least `d > 0` per round, any two fuels no smaller than
`⌈μ t / d⌉` give the same outcome - the loop has already exited. -/
theorem waitLoop_fuel {B : Type} (pos : B → Bool) (sub : B → B)
    (μ : B → ℚ) (d : ℚ) (hd : 0 < d)
    (hpos : ∀ b, pos b = true → 0 < μ b)
    (hsub : ∀ b, pos b = true → μ (sub b) ≤ μ b - d)
    (cond : ℕ → ℕ → Bool) :
    ∀ fuel₁ fuel₂ (l : List ℕ) (t : B) (r : ℕ),
      ceilRounds d (μ t) ≤ fuel₁ → ceilRounds d (μ t) ≤ fuel₂ →
      waitLoop pos sub cond fuel₁ l t r = waitLoop pos sub cond fuel₂ l t r := by
  intro fuel₁
  induction fuel₁ with
  | zero =>
    intro fuel₂ l t r h₁ _
    have ht : pos t = false := by
      rcases Bool.eq_false_or_eq_true (pos t) with htt | hf
      · have := ceilRounds_pos d (μ t) hd (hpos t htt)
        omega
      · exact hf
    cases fuel₂ with
    | zero => rfl
    | succ m =>
      rw [waitLoop_succ, if_neg (by simp [ht])]
      rfl
  | succ n ih =>
    intro fuel₂ l t r h₁ h₂
    cases fuel₂ with
    | zero =>
      have ht : pos t = false := by
        rcases Bool.eq_false_or_eq_true (pos t) with htt | hf
        · have := ceilRounds_pos d (μ t) hd (hpos t htt)
          omega
        · exact hf
      rw [waitLoop_succ, if_neg (by simp [ht])]
      rfl
    | succ m =>
      rw [waitLoop_succ, waitLoop_succ]
      by_cases hg : 0 < l.length ∧ pos t = true
      · rw [if_pos hg, if_pos hg]
        have hdec := ceilRounds_le_sub d (μ t) (μ (sub t)) hd (hsub t hg.2)
        exact ih m _ _ _ (by omega) (by omega)
      · rw [if_neg hg, if_neg hg]

/-- Round bound for the shared waiter: at most `⌈μ t / d⌉` rounds run, for
any fuel, even if no device ever satisfies the predicate. -/
theorem waitLoop_rounds {B : Type} (pos : B → Bool) (sub : B → B)
    (μ : B → ℚ) (d : ℚ) (hd : 0 < d)
    (hpos : ∀ b, pos b = true → 0 < μ b)
    (hsub : ∀ b, pos b = true → μ (sub b) ≤ μ b - d)
    (cond : ℕ → ℕ → Bool) :
    ∀ fuel (l : List ℕ) (t : B) (r : ℕ),
      (waitLoop pos sub cond fuel l t r).rounds ≤ r + ceilRounds d (μ t) := by
  intro fuel
  induction fuel with
  | zero =>
    intro l t r
    simp [waitLoop]
  | succ n ih =>
    intro l t r
    rw [waitLoop_succ]
    by_cases hg : 0 < l.length ∧ pos t = true
    · rw [if_pos hg]
      have h1 := ceilRounds_pos d (μ t) hd (hpos t hg.2)
      have hdec := ceilRounds_le_sub d (μ t) (μ (sub t)) hd (hsub t hg.2)
      calc (waitLoop pos sub cond n (pollPass (cond r) l) (sub t) (r + 1)).rounds
          ≤ (r + 1) + ceilRounds d (μ (sub t)) := ih _ _ _
        _ ≤ r + ceilRounds d (μ t) := by omega
    · rw [if_neg hg]
      simp

/-- The boolean returned by the shared waiter loop is exactly "the waiting
set is empty at exit". -/
theorem waitLoop_result_eq {B : Type} (pos : B → Bool) (sub : B → B)
    (cond : ℕ → ℕ → Bool) :
    ∀ fuel (l : List ℕ) (t : B) (r : ℕ),
      (waitLoop pos sub cond fuel l t r).result
        = (waitLoop pos sub cond fuel l t r).pending.isEmpty := by
  intro fuel
  induction fuel with
  | zero => intro l t r; rfl
  | succ n ih =>
    intro l t r
    rw [waitLoop_succ]
    by_cases hg : 0 < l.length ∧ pos t = true
    · rw [if_pos hg]; exact ih _ _ _
    · rw [if_neg hg]

/-- On an empty waiting list the loop exits immediately with `true`. -/
theorem waitLoop_nil {B : Type} (pos : B → Bool) (sub : B → B)
    (cond : ℕ → ℕ → Bool) :
    ∀ fuel (t : B) (r : ℕ), waitLoop pos sub cond fuel [] t r = ⟨true, r, []⟩ := by
  intro fuel
  cases fuel with
  | zero => intro t r; rfl
  | succ n =>
    intro t r
    rw [waitLoop_succ, if_neg (by simp)]
    rfl

/-- Termination of the volume waiter: fuel independence beyond the round
budget, under the same budget-decrement measure. -/
theorem volWaitLoop_fuel {B : Type} (pos : B → Bool) (sub : B → B)
    (μ : B → ℚ) (d : ℚ) (hd : 0 < d)
    (hpos : ∀ b, pos b = true → 0 < μ b)
    (hsub : ∀ b, pos b = true → μ (sub b) ≤ μ b - d)
    (vols : ℕ → ℕ → ℚ) (valid : ℕ → Bool) (tv : ℚ) :
    ∀ fuel₁ fuel₂ (l : List ℕ) (t : B) (r : ℕ),
      ceilRounds d (μ t) ≤ fuel₁ → ceilRounds d (μ t) ≤ fuel₂ →
      volWaitLoop pos sub vols valid tv fuel₁ l t r
        = volWaitLoop pos sub vols valid tv fuel₂ l t r := by
  intro fuel₁
  induction fuel₁ with
  | zero =>
    intro fuel₂ l t r h₁ _
    have ht : pos t = false := by
      rcases Bool.eq_false_or_eq_true (pos t) with htt | hf
      · have := ceilRounds_pos d (μ t) hd (hpos t htt)
        omega
      · exact hf
    cases fuel₂ with
    | zero => rfl
    | succ m =>
      rw [volWaitLoop_succ, if_neg (by simp [ht])]
      rfl
  | succ n ih =>
    intro fuel₂ l t r h₁ h₂
    cases fuel₂ with
    | zero =>
      have ht : pos t = false := by
        rcases Bool.eq_false_or_eq_true (pos t) with htt | hf
        · have := ceilRounds_pos d (μ t) hd (hpos t htt)
          omega
        · exact hf
      rw [volWaitLoop_succ, if_neg (by simp [ht])]
      rfl
    | succ m =>
      rw [volWaitLoop_succ, volWaitLoop_succ]
      by_cases ht : pos t = true
      · rw [if_pos ht, if_pos ht]
        by_cases hc : volCheck (vols r) valid tv l = true
        · rw [if_pos hc, if_pos hc]
        · rw [if_neg hc, if_neg hc]
          have hdec := ceilRounds_le_sub d (μ t) (μ (sub t)) hd (hsub t ht)
          exact ih m _ _ _ (by omega) (by omega)
      · rw [if_neg ht, if_neg ht]

/-- Round bound for the volume waiter. -/
theorem volWaitLoop_rounds {B : Type} (pos : B → Bool) (sub : B → B)
    (μ : B → ℚ) (d : ℚ) (hd : 0 < d)
    (hpos : ∀ b, pos b = true → 0 < μ b)
    (hsub : ∀ b, pos b = true → μ (sub b) ≤ μ b - d)
    (vols : ℕ → ℕ → ℚ) (valid : ℕ → Bool) (tv : ℚ) :
    ∀ fuel (l : List ℕ) (t : B) (r : ℕ),
      (volWaitLoop pos sub vols valid tv fuel l t r).2 ≤ r + ceilRounds d (μ t) := by
  intro fuel
  induction fuel with
  | zero => intro l t r; simp [volWaitLoop]
  | succ n ih =>
    intro l t r
    rw [volWaitLoop_succ]
    by_cases ht : pos t = true
    · rw [if_pos ht]
      have h1 := ceilRounds_pos d (μ t) hd (hpos t ht)
      have hdec := ceilRounds_le_sub d (μ t) (μ (sub t)) hd (hsub t ht)
      by_cases hc : volCheck (vols r) valid tv l = true
      · rw [if_pos hc]
        simp
        omega
      · rw [if_neg hc]
        calc (volWaitLoop pos sub vols valid tv n l (sub t) (r + 1)).2
            ≤ (r + 1) + ceilRounds d (μ (sub t)) := ih _ _ _
          _ ≤ r + ceilRounds d (μ t) := by omega
    · rw [if_neg ht]
      simp

/-- C8 counterexample.  Two refutations of the claim as stated.  First, the
round bound: with the source's binary64 budget arithmetic, a one-second
timeout (the float `1.0`) runs the shared loop for 6 rounds - one more
than `⌈1.0 / 0.2⌉ = 5` - because five float subtractions of `0.2` from
`1.0` leave a positive residue `2 ^ (-54)`.  Second, the result contract:
for the empty device list the validation block returns `false` even though
the waiting set at exit is empty (no device is pending). -/
theorem waiter_round_bound_counterexample :
    (waitLoop floatPos floatBudgetSub (fun _ _ => false) 10 [0] ⟨1, 0⟩ 0).rounds = 6 ∧
    F64.toRat ⟨1, 0⟩ = 1 ∧
    nRounds 1 = 5 ∧
    asyncWaitUntilMediaPlayers ratPos ratBudgetSub (nRounds 1)
        (fun _ => true) (fun _ _ => true) [] 1 = false ∧
    (waitLoop ratPos ratBudgetSub (fun _ _ => true) (nRounds 1) [] 1 0).pending = [] := by
  refine ⟨by decide, ?_, ?_, rfl, ?_⟩
  · norm_num [F64.toRat, pow2]
  · have h : (⌈(1:ℚ) / ((1:ℚ)/5)⌉) = 5 := by norm_num
    unfold nRounds ceilRounds WAIT_DELAY
    rw [h]
    rfl
  · rw [waitLoop_nil]

/-- C8 amended.  Every polling wait loop decrements its budget each round;
whenever a rational measure `μ` of the budget drops by at least `d > 0`
per round (for the idealised exact decrement, `μ = id` and `d = 1/5`,
giving the bound `⌈timeout / 0.2⌉` the specification intends), both loops
terminate after at most `⌈μ timeout / d⌉` rounds - independently of any
sufficient fuel - even if no device ever satisfies the predicate; the
source's binary64 subtraction can leave a positive residue at exact
multiples and exceed the ideal bound by a round (see the counterexample).
For a NONEMPTY device list all of whose entity ids resolve, the shared
waiter returns `false` iff some device is still pending at loop exit; for
an empty list (or an unresolvable id) validation returns `false` with no
device pending. -/
theorem wait_loops_terminate_and_report {B : Type}
    (pos : B → Bool) (sub : B → B) (μ : B → ℚ) (d : ℚ) (hd : 0 < d)
    (hpos : ∀ b, pos b = true → 0 < μ b)
    (hsub : ∀ b, pos b = true → μ (sub b) ≤ μ b - d)
    (valid : ℕ → Bool) (cond : ℕ → ℕ → Bool)
    (l : List ℕ) (t : B) (hl : l ≠ []) (hv : l.all valid = true) :
    (∀ fuel₁ fuel₂, ceilRounds d (μ t) ≤ fuel₁ → ceilRounds d (μ t) ≤ fuel₂ →
        waitLoop pos sub cond fuel₁ l t 0 = waitLoop pos sub cond fuel₂ l t 0) ∧
    (∀ fuel, (waitLoop pos sub cond fuel l t 0).rounds ≤ ceilRounds d (μ t)) ∧
    (∀ fuel, asyncWaitUntilMediaPlayers pos sub fuel valid cond l t = false
        ↔ (waitLoop pos sub cond fuel l t 0).pending ≠ []) ∧
    (∀ (vols : ℕ → ℕ → ℚ) (tv : ℚ) fuel₁ fuel₂,
        ceilRounds d (μ t) ≤ fuel₁ → ceilRounds d (μ t) ≤ fuel₂ →
        volWaitLoop pos sub vols valid tv fuel₁ l t 0
          = volWaitLoop pos sub vols valid tv fuel₂ l t 0) ∧
    (∀ (vols : ℕ → ℕ → ℚ) (tv : ℚ) fuel,
        (volWaitLoop pos sub vols valid tv fuel l t 0).2 ≤ ceilRounds d (μ t)) := by
  refine ⟨?_, ?_, ?_, ?_, ?_⟩
  · intro fuel₁ fuel₂ h₁ h₂
    exact waitLoop_fuel pos sub μ d hd hpos hsub cond fuel₁ fuel₂ l t 0 h₁ h₂
  · intro fuel
    have := waitLoop_rounds pos sub μ d hd hpos hsub cond fuel l t 0
    omega
  · intro fuel
    have hval : asyncWaitUntilMediaPlayers pos sub fuel valid cond l t
        = (waitLoop pos sub cond fuel l t 0).result := by
      unfold asyncWaitUntilMediaPlayers
      rw [if_neg (by simpa using hl), if_neg (by simp [hv])]
    rw [hval, waitLoop_result_eq]
    rcases (waitLoop pos sub cond fuel l t 0).pending with _ | ⟨x, xs⟩
    · simp
    · simp
  · intro vols tv fuel₁ fuel₂ h₁ h₂
    exact volWaitLoop_fuel pos sub μ d hd hpos hsub vols valid tv fuel₁ fuel₂ l t 0 h₁ h₂
  · intro vols tv fuel
    have := volWaitLoop_rounds pos sub μ d hd hpos hsub vols valid tv fuel l t 0
    omega

/-- Witness for the amended C8: one valid device, an always-false
predicate, the exact-decrement budget instantiation at a one-second
timeout; the shared loop runs at most `⌈1 / (1/5)⌉ = 5` rounds. -/
theorem wait_loops_terminate_and_report_witness :
    (0:ℚ) < WAIT_DELAY ∧ ([0] : List ℕ) ≠ [] ∧
    ([0] : List ℕ).all (fun _ => true) = true ∧
    (waitLoop ratPos ratBudgetSub (fun _ _ => false) 5 [0] (1:ℚ) 0).rounds
      ≤ ceilRounds WAIT_DELAY 1 :=
  ⟨by norm_num [WAIT_DELAY], by decide, by decide,
    (wait_loops_terminate_and_report ratPos ratBudgetSub (fun u => u) WAIT_DELAY
      (by norm_num [WAIT_DELAY])
      (fun b hb => of_decide_eq_true hb)
      (fun b _ => le_refl _)
      (fun _ => true) (fun _ _ => false) [0] (1:ℚ)
      (List.cons_ne_nil _ _) (by decide)).2.1 5⟩

/-! ### Message parsing (helpers.py, `parse_message` and `convert_yaml_str`)

The YAML library is an external collaborator modelled as a decode oracle
`List Char → Option YVal` (`none` is a caught `yaml.YAMLError`, after which
`convert_yaml_str` returns `None`).  The model covers everything the source
does around the decode: the niqqud strip, the quote-escape preprocessing of
`convert_yaml_str`, the short-form/long-form normalisation with its
validity flag, the fallback single `tts` segment, and the final
adjustments (key lowercasing, `speed`/`pitch` renames, `repeat`
expansion).  `contains_keys` in the source is initialised to `True` and
only ever or-ed, so the decode path is always taken; the model does the
same.

Note on a known divergence: lowercasing the keys of a *nested* dict value
mutates that dict during iteration, which in Python raises `RuntimeError`
when a key is not already lowercase; the model lowercases instead.  No
claim involves nested dict values.
-/

/-- Decoded YAML value. -/
inductive YVal where
  | str : List Char → YVal
  | int : ℤ → YVal
  | list : List YVal → YVal
  | dict : List (List Char × YVal) → YVal

/-- Python dict with string keys, as an insertion-ordered association
list. -/
abbrev YDict := List (List Char × YVal)

/-- Dict lookup (first entry with the key). -/
def yGet : YDict → List Char → Option YVal
  | [], _ => none
  | p :: ds, k => if p.1 = k then some p.2 else yGet ds k

/-- Python `k in d`. -/
def yHas (d : YDict) (k : List Char) : Bool := (yGet d k).isSome

/-- Python `d[k] = v`: update in place when present, append otherwise. -/
def ySet (d : YDict) (k : List Char) (v : YVal) : YDict :=
  if yHas d k then d.map (fun p => if p.1 = k then (k, v) else p) else d ++ [(k, v)]

/-- Python `del d[k]`: remove the entry carrying the key. -/
def yDel : YDict → List Char → YDict
  | [], _ => []
  | p :: ds, k => if p.1 = k then yDel ds k else p :: yDel ds k

/-- Key list of a dict. -/
def yKeys (d : YDict) : List (List Char) := d.map Prod.fst

/-- Hygiene of a decoded mapping: every key is already lowercase (so the
key-lowercasing pass moves nothing). -/
def keysLower (d : YDict) : Prop := ∀ p ∈ d, p.1.map Char.toLower = p.1

/-- Hygiene of a decoded mapping: keys are distinct (YAML mappings decode
with unique keys). -/
def keysNodup (d : YDict) : Prop := (yKeys d).Nodup

/-- Modelled from the spec: `QUOTE_CHAR_SUBSTITUTE`, the reserved character
sequence used to escape literal quotes, lives in the `const` module, which
is not among the sources; section 4.1 of the specification only requires a
reserved sequence, so the model fixes an arbitrary placeholder character.
No behaviour below depends on its value. -/
def QUOTE_CHAR_SUBSTITUTE : List Char := [Char.ofNat 167]

/-- Short-form to long-form normalisation of one entry (helpers.py lines
310-327).  `none` marks the entry invalid (`is_valid = False`); a
non-string `chime`/`tts` payload raises `AttributeError` at the
`.replace` call.  Only this branch restores the quote substitute. -/
def convertShortForm (qs : List Char) (e : YDict) : Except PyErr (Option YDict) :=
  if yHas e (ls "type") then Except.ok (some e)
  else
    match yGet e (ls "chime") with
    | some (YVal.str v) =>
      Except.ok (some (yDel (ySet (ySet e (ls "type") (YVal.str (ls "chime")))
        (ls "path") (YVal.str (replaceAll qs QUOTE v))) (ls "chime")))
    | some _ => Except.error PyErr.attributeError
    | none =>
      match yGet e (ls "tts") with
      | some (YVal.str v) =>
        Except.ok (some (yDel (ySet (ySet e (ls "type") (YVal.str (ls "tts")))
          (ls "message") (YVal.str (replaceAll qs QUOTE v))) (ls "tts")))
      | some _ => Except.error PyErr.attributeError
      | none =>
        match yGet e (ls "delay") with
        | some v =>
          Except.ok (some (yDel (ySet (ySet e (ls "type") (YVal.str (ls "delay")))
            (ls "length") v) (ls "delay")))
        | none => Except.ok none

/-- Validation loop over the decoded list (helpers.py lines 304-331).  A
non-dict entry or an unrecognised dict makes the whole list invalid
(`none`), but iteration continues, so a later `AttributeError` still
escapes. -/
def validateSegments (qs : List Char) : List YVal → Except PyErr (Option (List YDict))
  | [] => Except.ok (some [])
  | YVal.dict e :: rest =>
    match convertShortForm qs e with
    | Except.error er => Except.error er
    | Except.ok oe =>
      match validateSegments qs rest with
      | Except.error er => Except.error er
      | Except.ok orest =>
        Except.ok (match oe, orest with
          | some e₁, some rest₁ => some (e₁ :: rest₁)
          | _, _ => none)
  | _ :: rest =>
    match validateSegments qs rest with
    | Except.error er => Except.error er
    | Except.ok _ => Except.ok none

/-- Lowercasing of the keys of a nested dict value (helpers.py lines
345-347; see the divergence note above). -/
def lowerVal : YVal → YVal
  | YVal.dict nested =>
    YVal.dict (nested.foldl (fun acc q => ySet acc (q.1.map Char.toLower) q.2) nested)
  | v => v

/-- Key lowercasing of one segment (helpers.py lines 343-349): a fresh dict
is built with `segment[key.lower()] = value`. -/
def lowerKeys (e : YDict) : YDict :=
  e.foldl (fun acc p => ySet acc (p.1.map Char.toLower) (lowerVal p.2)) []

/-- Python truthiness of a decoded value, as used by
`segment.get("speed")`-style tests. -/
def yTruthy : YVal → Bool
  | YVal.str v => !v.isEmpty
  | YVal.int n => decide (n ≠ 0)
  | YVal.list l => !l.isEmpty
  | YVal.dict d => !d.isEmpty

/-- Alternate key rename `speed` → `tts_speed` (helpers.py lines 352-354);
the source tests truthiness, not presence. -/
def renameSpeed (e : YDict) : YDict :=
  match yGet e (ls "speed") with
  | some v => if yTruthy v then yDel (ySet e (ls "tts_speed") v) (ls "speed") else e
  | none => e

/-- Alternate key rename `pitch` → `tts_pitch` (helpers.py lines
355-357). -/
def renamePitch (e : YDict) : YDict :=
  match yGet e (ls "pitch") with
  | some v => if yTruthy v then yDel (ySet e (ls "tts_pitch") v) (ls "pitch") else e
  | none => e

/-- Both renames, in source order. -/
def renameKeys (e : YDict) : YDict := renamePitch (renameSpeed e)

/-- Repeat count (helpers.py lines 360-364): an integer `repeat` is clamped
below by 1, anything else counts once. -/
def repeatCount (e : YDict) : ℕ :=
  match yGet e (ls "repeat") with
  | some (YVal.int n) => (max n 1).toNat
  | some _ => 1
  | none => 1

/-- Final adjustments applied to one segment. -/
def finalSeg (e : YDict) : YDict := renameKeys (lowerKeys e)

/-- Final adjustments over all segments (helpers.py lines 341-366):
lowercase the keys, rename the aliases, replicate by the repeat count. -/
def finalizeSegments (segs : List YDict) : List YDict :=
  (segs.map (fun e => List.replicate (repeatCount (finalSeg e)) (finalSeg e))).flatten

/-- Quote-escape preprocessing of `convert_yaml_str` (helpers.py line 378):
`.replace("'", "\\'")` then `.replace("\\\\'", QUOTE_CHAR_SUBSTITUTE)` then
`.replace("\\'", "'")`, written here with explicit character lists. -/
def preprocessYamlStr (qs s : List Char) : List Char :=
  replaceAll BSQUOTE QUOTE (replaceAll BSBSQUOTE qs (replaceAll QUOTE BSQUOTE s))

/-- Embedding of `convert_yaml_str(yaml_string)` (helpers.py lines
370-391) for a string input: falsy input yields `{}`, otherwise the
preprocessed string is decoded; a decode error returns `None`. -/
def convert_yaml_str (qs : List Char) (decode : List Char → Option YVal)
    (s : List Char) : Option YVal :=
  if s = [] then some (YVal.dict [])
  else decode (preprocessYamlStr qs s)

/-- Niqqud removal (helpers.py lines 282-287). -/
def remove_niqqud (s : List Char) : List Char :=
  s.filter (fun c => !(decide (1425 ≤ c.toNat) && decide (c.toNat ≤ 1479)))

/-- Embedding of `parse_message(message_string)` (helpers.py lines
289-368). -/
def parse_message (qs : List Char) (decode : List Char → Option YVal)
    (msg : List Char) : Except PyErr (List YDict) :=
  let m := remove_niqqud msg
  if m.length = 0 ∨ m = ls "None" then Except.ok []
  else
    match (match convert_yaml_str qs decode m with
           | some (YVal.list elems) => validateSegments qs elems
           | _ => Except.ok none) with
    | Except.error e => Except.error e
    | Except.ok osegs =>
      let segs : List YDict :=
        match osegs with
        | some segs₀ =>
          if segs₀.length = 0 then
            [[(ls "type", YVal.str (ls "tts")), (ls "message", YVal.str m)]]
          else segs₀
        | none => [[(ls "type", YVal.str (ls "tts")), (ls "message", YVal.str m)]]
      Except.ok (finalizeSegments segs)

/-- Message payload of the C9 counterexample after decoding: the quote
substitute is embedded in the payload, exactly as a literal backslash-quote
in the raw message ends up after preprocessing. -/
def exMessageVal : List Char := ls "a" ++ QUOTE_CHAR_SUBSTITUTE ++ ls "b"

/-- Preprocessed form of the C9 counterexample raw string. -/
def exPre : List Char := ls "[\x7btype: tts, message: a" ++ QUOTE_CHAR_SUBSTITUTE ++ ls "b\x7d]"

/-- Decode oracle of the C9 counterexample: behaves as `yaml.safe_load`
does on exactly the preprocessed string, yielding one long-form `tts`
segment whose message carries the substitute character. -/
def exDecode : List Char → Option YVal := fun s =>
  if s = exPre then
    some (YVal.list [YVal.dict [(ls "type", YVal.str (ls "tts")),
                                (ls "message", YVal.str exMessageVal)]])
  else none

/-- C9 counterexample.  A long-form segment (explicit `type` key) written
with an escaped quote: after `parse_message` the `message` payload still
carries the quote substitute - the restoration of helpers.py lines 314/319
runs only in the short-form branch - and that payload differs from its
restored form. -/
theorem parse_message_longform_not_restored :
    parse_message QUOTE_CHAR_SUBSTITUTE exDecode
        (ls "[\x7btype: tts, message: a" ++ BSQUOTE ++ ls "b\x7d]")
      = Except.ok [[(ls "type", YVal.str (ls "tts")),
                    (ls "message", YVal.str exMessageVal)]] ∧
    replaceAll QUOTE_CHAR_SUBSTITUTE QUOTE exMessageVal ≠ exMessageVal := by
  constructor
  · rfl
  · decide

/-- A lookup misses exactly when the key is absent. -/
theorem yGet_eq_none_iff (d : YDict) (k : List Char) :
    yGet d k = none ↔ k ∉ yKeys d := by
  induction d with
  | nil =>
    constructor
    · intro _ h
      cases h
    · intro _
      rfl
  | cons p ds ih =>
    constructor
    · intro h hmem
      by_cases hp : p.1 = k
      · rw [show yGet (p :: ds) k = some p.2 from by
          simp only [yGet, if_pos hp]] at h
        cases h
      · rcases List.mem_cons.mp hmem with heq | hmem₁
        · exact hp heq.symm
        · refine ih.mp ?_ hmem₁
          rw [show yGet (p :: ds) k = yGet ds k from by
            simp only [yGet, if_neg hp]] at h
          exact h
    · intro h
      by_cases hp : p.1 = k
      · refine absurd ?_ h
        have e : p.1 ∈ yKeys (p :: ds) := List.mem_cons_self p.1 _
        exact hp ▸ e
      · rw [show yGet (p :: ds) k = yGet ds k from by
          simp only [yGet, if_neg hp]]
        exact ih.mpr (fun hmem => h (List.mem_cons_of_mem _ hmem))

/-- Absence as a key-membership statement. -/
theorem yHas_eq_false_iff (d : YDict) (k : List Char) :
    yHas d k = false ↔ k ∉ yKeys d := by
  unfold yHas
  rcases hg : yGet d k with _ | v
  · simp only [Option.isSome_none]
    exact ⟨fun _ => (yGet_eq_none_iff d k).mp hg, fun _ => trivial⟩
  · simp only [Option.isSome_some]
    constructor
    · intro h
      cases h
    · intro h
      exact absurd hg (by simp [(yGet_eq_none_iff d k).mpr h])

/-- Setting an absent key appends it. -/
theorem ySet_absent (d : YDict) (k : List Char) (v : YVal)
    (h : yHas d k = false) : ySet d k v = d ++ [(k, v)] := by
  simp [ySet, h]

/-- Lookup of an updated present key. -/
theorem yGet_map_update_self (k : List Char) (v : YVal) :
    ∀ d : YDict, yHas d k = true →
      yGet (d.map (fun p => if p.1 = k then (k, v) else p)) k = some v := by
  intro d
  induction d with
  | nil => intro h; simp [yHas, yGet] at h
  | cons p ds ih =>
    intro h
    by_cases hp : p.1 = k
    · simp [yGet, hp]
    · have h₁ : yHas ds k = true := by
        simpa [yHas, yGet, hp] using h
      simpa [yGet, hp] using ih h₁

/-- Lookup of an appended absent key. -/
theorem yGet_append_single_self (k : List Char) (v : YVal) :
    ∀ d : YDict, yHas d k = false → yGet (d ++ [(k, v)]) k = some v := by
  intro d
  induction d with
  | nil => intro _; simp [yGet]
  | cons p ds ih =>
    intro h
    by_cases hp : p.1 = k
    · simp [yHas, yGet, hp] at h
    · have h₁ : yHas ds k = false := by
        simpa [yHas, yGet, hp] using h
      simpa [yGet, hp] using ih h₁

/-- Lookup of the key just set. -/
theorem yGet_ySet_self (d : YDict) (k : List Char) (v : YVal) :
    yGet (ySet d k v) k = some v := by
  unfold ySet
  by_cases h : yHas d k = true
  · rw [if_pos h]
    exact yGet_map_update_self k v d h
  · rw [if_neg h]
    exact yGet_append_single_self k v d (Bool.not_eq_true _ ▸ h)

/-- Lookup of another key through the entrywise update map. -/
theorem yGet_map_update_ne (k k₁ : List Char) (v : YVal) (hk : k₁ ≠ k) :
    ∀ d : YDict,
      yGet (d.map (fun p => if p.1 = k then (k, v) else p)) k₁ = yGet d k₁ := by
  intro d
  induction d with
  | nil => rfl
  | cons p ds ih =>
    simp only [List.map_cons, yGet]
    by_cases hp : p.1 = k
    · have h₂ : ¬ (p.1 = k₁) := by
        rw [hp]
        exact fun hh => hk hh.symm
      rw [if_pos hp, if_neg (show ¬ ((k, v).1 = k₁) from fun hh => hk hh.symm),
        if_neg h₂, ih]
    · rw [if_neg hp]
      by_cases hp₁ : p.1 = k₁
      · rw [if_pos hp₁, if_pos hp₁]
      · rw [if_neg hp₁, if_neg hp₁, ih]

/-- Lookup of another key past an appended entry. -/
theorem yGet_append_single_ne (k k₁ : List Char) (v : YVal) (hk : k₁ ≠ k) :
    ∀ d : YDict, yGet (d ++ [(k, v)]) k₁ = yGet d k₁ := by
  intro d
  induction d with
  | nil =>
    show (if k = k₁ then some v else yGet [] k₁) = yGet [] k₁
    rw [if_neg (fun hh => hk hh.symm)]
  | cons p ds ih =>
    simp only [List.cons_append, yGet]
    by_cases hp : p.1 = k₁
    · rw [if_pos hp, if_pos hp]
    · rw [if_neg hp, if_neg hp]
      exact ih

/-- Setting one key leaves other lookups unchanged. -/
theorem yGet_ySet_ne (d : YDict) (k k₁ : List Char) (v : YVal)
    (hk : k₁ ≠ k) : yGet (ySet d k v) k₁ = yGet d k₁ := by
  unfold ySet
  by_cases h : yHas d k = true
  · rw [if_pos h]
    exact yGet_map_update_ne k k₁ v hk d
  · rw [if_neg h]
    exact yGet_append_single_ne k k₁ v hk d

/-- Deleting one key leaves other lookups unchanged. -/
theorem yGet_yDel_ne (d : YDict) (k k₁ : List Char)
    (hk : k₁ ≠ k) : yGet (yDel d k) k₁ = yGet d k₁ := by
  induction d with
  | nil => rfl
  | cons p ds ih =>
    by_cases hp : p.1 = k
    · have hp₁ : ¬ (p.1 = k₁) := by
        rw [hp]
        exact fun hh => hk hh.symm
      simp only [yDel, yGet, if_pos hp, if_neg hp₁]
      exact ih
    · simp only [yDel, yGet, if_neg hp]
      by_cases hp₁ : p.1 = k₁
      · rw [if_pos hp₁, if_pos hp₁]
      · rw [if_neg hp₁, if_neg hp₁]
        exact ih

/-- Deletion is a sublist. -/
theorem yDel_sublist (d : YDict) (k : List Char) : List.Sublist (yDel d k) d := by
  induction d with
  | nil => exact List.Sublist.refl _
  | cons p ds ih =>
    by_cases hp : p.1 = k
    · simp only [yDel, if_pos hp]
      exact ih.cons p
    · simp only [yDel, if_neg hp]
      exact ih.cons₂ p

/-- Keys after an update: unchanged when present, appended when absent. -/
theorem yKeys_ySet (d : YDict) (k : List Char) (v : YVal) :
    yKeys (ySet d k v) = if yHas d k = true then yKeys d else yKeys d ++ [k] := by
  by_cases h : yHas d k = true
  · rw [if_pos h]
    unfold ySet yKeys
    rw [if_pos h, List.map_map]
    apply List.map_congr_left
    intro p _
    by_cases hp : p.1 = k
    · simp [hp]
    · simp [hp]
  · rw [if_neg h]
    unfold ySet yKeys
    rw [if_neg h, List.map_append]
    rfl

/-- Key hygiene is preserved by setting a lowercase key. -/
theorem keysLower_ySet (d : YDict) (k : List Char) (v : YVal)
    (hd : keysLower d) (hk : k.map Char.toLower = k) :
    keysLower (ySet d k v) := by
  intro p hp
  unfold ySet at hp
  by_cases h : yHas d k = true
  · rw [if_pos h] at hp
    rcases List.mem_map.mp hp with ⟨q, hq, hmap⟩
    by_cases hq₁ : q.1 = k
    · rw [← hmap]
      simp [hq₁, hk]
    · rw [← hmap]
      simp only [hq₁, if_false]
      exact hd q hq
  · rw [if_neg h] at hp
    rcases List.mem_append.mp hp with hin | hin
    · exact hd p hin
    · rcases List.mem_singleton.mp hin with rfl
      exact hk

/-- Key hygiene is preserved by deletion. -/
theorem keysLower_yDel (d : YDict) (k : List Char)
    (hd : keysLower d) : keysLower (yDel d k) := by
  intro p hp
  exact hd p ((yDel_sublist d k).subset hp)

/-- Key distinctness is preserved by an update. -/
theorem keysNodup_ySet (d : YDict) (k : List Char) (v : YVal)
    (hd : keysNodup d) : keysNodup (ySet d k v) := by
  unfold keysNodup
  rw [yKeys_ySet]
  by_cases h : yHas d k = true
  · rw [if_pos h]
    exact hd
  · rw [if_neg h]
    have hnot : k ∉ yKeys d := (yHas_eq_false_iff d k).mp (Bool.not_eq_true _ ▸ h)
    have hd₁ : (yKeys d).Nodup := hd
    rw [List.nodup_append]
    refine ⟨hd₁, List.nodup_singleton _, ?_⟩
    intro a ha hmem
    rcases List.mem_singleton.mp hmem with rfl
    exact hnot ha

/-- Key distinctness is preserved by deletion. -/
theorem keysNodup_yDel (d : YDict) (k : List Char)
    (hd : keysNodup d) : keysNodup (yDel d k) := by
  unfold keysNodup yKeys
  exact hd.sublist ((yDel_sublist d k).map Prod.fst)

/-- On a hygienic dict the key-lowercasing pass only lowercases nested
dict values, keeping every entry in place. -/
theorem lowerKeys_eq_map (d : YDict) (hl : keysLower d) (hn : keysNodup d) :
    lowerKeys d = d.map (fun p => (p.1, lowerVal p.2)) := by
  have key : ∀ (d₀ acc : YDict),
      keysLower d₀ → keysNodup d₀ →
      (∀ p ∈ d₀, p.1 ∉ yKeys acc) →
      d₀.foldl (fun acc p => ySet acc (p.1.map Char.toLower) (lowerVal p.2)) acc
        = acc ++ d₀.map (fun p => (p.1, lowerVal p.2)) := by
    intro d₀
    induction d₀ with
    | nil =>
      intro acc _ _ _
      simp
    | cons p ds ih =>
      intro acc hl₀ hn₀ hfresh
      simp only [List.foldl_cons, List.map_cons]
      have hpl : p.1.map Char.toLower = p.1 := hl₀ p (List.mem_cons_self _ _)
      have hset : ySet acc (p.1.map Char.toLower) (lowerVal p.2)
          = acc ++ [(p.1, lowerVal p.2)] := by
        rw [hpl]
        exact ySet_absent acc p.1 (lowerVal p.2)
          ((yHas_eq_false_iff acc p.1).mpr (hfresh p (List.mem_cons_self _ _)))
      rw [hset]
      have hl₁ : keysLower ds := fun q hq => hl₀ q (List.mem_cons_of_mem _ hq)
      have hn₁ : keysNodup ds := by
        unfold keysNodup yKeys at hn₀ ⊢
        exact (List.nodup_cons.mp hn₀).2
      have hp₁ : p.1 ∉ yKeys ds := by
        unfold keysNodup yKeys at hn₀
        exact (List.nodup_cons.mp hn₀).1
      have hfresh₁ : ∀ q ∈ ds, q.1 ∉ yKeys (acc ++ [(p.1, lowerVal p.2)]) := by
        intro q hq hmem
        unfold yKeys at hmem
        rw [List.map_append] at hmem
        rcases List.mem_append.mp hmem with hin | hin
        · exact hfresh q (List.mem_cons_of_mem _ hq) hin
        · rcases List.mem_singleton.mp hin with heq
          exact hp₁ (heq ▸ List.mem_map_of_mem Prod.fst hq)
      rw [ih (acc ++ [(p.1, lowerVal p.2)]) hl₁ hn₁ hfresh₁]
      simp
  have h := key d [] hl hn (by simp [yKeys])
  simpa [lowerKeys] using h

/-- Lookups through the entrywise value map. -/
theorem yGet_map_lowerVal (d : YDict) (k : List Char) :
    yGet (d.map (fun p => (p.1, lowerVal p.2))) k = (yGet d k).map lowerVal := by
  induction d with
  | nil => rfl
  | cons p ds ih =>
    by_cases hp : p.1 = k
    · simp [yGet, hp]
    · simp [yGet, hp, ih]

/-- The speed rename never touches other keys. -/
theorem yGet_renameSpeed_ne (d : YDict) (k : List Char)
    (h1 : k ≠ ls "speed") (h2 : k ≠ ls "tts_speed") :
    yGet (renameSpeed d) k = yGet d k := by
  rcases hs : yGet d (ls "speed") with _ | v
  · simp only [renameSpeed, hs]
  · simp only [renameSpeed, hs]
    by_cases ht : yTruthy v = true
    · rw [if_pos ht, yGet_yDel_ne _ _ _ h1, yGet_ySet_ne _ _ _ _ h2]
    · rw [if_neg ht]

/-- The pitch rename never touches other keys. -/
theorem yGet_renamePitch_ne (d : YDict) (k : List Char)
    (h1 : k ≠ ls "pitch") (h2 : k ≠ ls "tts_pitch") :
    yGet (renamePitch d) k = yGet d k := by
  rcases hs : yGet d (ls "pitch") with _ | v
  · simp only [renamePitch, hs]
  · simp only [renamePitch, hs]
    by_cases ht : yTruthy v = true
    · rw [if_pos ht, yGet_yDel_ne _ _ _ h1, yGet_ySet_ne _ _ _ _ h2]
    · rw [if_neg ht]

/-- String payloads of a hygienic segment survive the final adjustments
verbatim. -/
theorem yGet_finalSeg_str (e : YDict) (k : List Char) (v : List Char)
    (hl : keysLower e) (hn : keysNodup e)
    (h1 : k ≠ ls "speed") (h2 : k ≠ ls "tts_speed")
    (h3 : k ≠ ls "pitch") (h4 : k ≠ ls "tts_pitch")
    (hget : yGet e k = some (YVal.str v)) :
    yGet (finalSeg e) k = some (YVal.str v) := by
  unfold finalSeg renameKeys
  rw [yGet_renamePitch_ne _ _ h3 h4, yGet_renameSpeed_ne _ _ h1 h2,
    lowerKeys_eq_map e hl hn, yGet_map_lowerVal, hget]
  rfl

/-- A successful validation relates the decoded entries and the
normalised segments elementwise through `convertShortForm`. -/
theorem validateSegments_forall₂ (qs : List Char) :
    ∀ (elems : List YVal) (segs : List YDict),
      validateSegments qs elems = Except.ok (some segs) →
      List.Forall₂ (fun (y : YVal) (e₁ : YDict) => ∃ e : YDict,
        y = YVal.dict e ∧ convertShortForm qs e = Except.ok (some e₁)) elems segs := by
  intro elems
  induction elems with
  | nil =>
    intro segs h
    simp only [validateSegments, Except.ok.injEq, Option.some.injEq] at h
    rw [← h]
    exact List.Forall₂.nil
  | cons y rest ih =>
    intro segs h
    cases y with
    | dict e =>
      simp only [validateSegments] at h
      rcases hc : convertShortForm qs e with er | oe
      · rw [hc] at h
        simp at h
      · rw [hc] at h
        rcases hr : validateSegments qs rest with er | orest
        · rw [hr] at h
          simp at h
        · rw [hr] at h
          rcases oe with _ | e₁
          · rcases orest with _ | rest₁ <;> simp at h
          · rcases orest with _ | rest₁
            · simp at h
            · simp only [Except.ok.injEq, Option.some.injEq] at h
              rw [← h]
              exact List.Forall₂.cons ⟨e, rfl, hc⟩ (ih rest₁ hr)
    | str sv =>
      simp only [validateSegments] at h
      rcases hr : validateSegments qs rest with er | o <;> rw [hr] at h <;> simp at h
    | int n =>
      simp only [validateSegments] at h
      rcases hr : validateSegments qs rest with er | o <;> rw [hr] at h <;> simp at h
    | list lv =>
      simp only [validateSegments] at h
      rcases hr : validateSegments qs rest with er | o <;> rw [hr] at h <;> simp at h

/-- Pipeline evaluation of `parse_message` on a successfully validated
nonempty decode. -/
theorem parse_message_eval (qs : List Char) (decode : List Char → Option YVal)
    (raw : List Char) (elems : List YVal) (segs : List YDict)
    (hm1 : (remove_niqqud raw).length ≠ 0)
    (hm2 : remove_niqqud raw ≠ ls "None")
    (hdec : decode (preprocessYamlStr qs (remove_niqqud raw))
        = some (YVal.list elems))
    (hval : validateSegments qs elems = Except.ok (some segs))
    (hne : segs ≠ []) :
    parse_message qs decode raw = Except.ok (finalizeSegments segs) := by
  have hnil : remove_niqqud raw ≠ [] := by
    intro h
    exact hm1 (by rw [h]; rfl)
  have hcond : ¬((remove_niqqud raw).length = 0 ∨ remove_niqqud raw = ls "None") := by
    push_neg
    exact ⟨hm1, hm2⟩
  have hlen : ¬(segs.length = 0) := by
    intro h
    exact hne (List.length_eq_zero.mp h)
  have hstep : (match convert_yaml_str qs decode (remove_niqqud raw) with
      | some (YVal.list es) => validateSegments qs es
      | _ => Except.ok none) = Except.ok (some segs) := by
    rw [show convert_yaml_str qs decode (remove_niqqud raw)
        = decode (preprocessYamlStr qs (remove_niqqud raw)) from by
      unfold convert_yaml_str
      rw [if_neg hnil]]
    rw [hdec]
    exact hval
  simp only [parse_message]
  rw [if_neg hcond, hstep]
  show Except.ok (finalizeSegments
      (if segs.length = 0 then
        [[(ls "type", YVal.str (ls "tts")),
          (ls "message", YVal.str (remove_niqqud raw))]]
      else segs))
    = Except.ok (finalizeSegments segs)
  rw [if_neg hlen]

/-- C9 amended.  For every raw message whose decode validates to a
nonempty segment list: `parse_message` returns exactly the finalised
segments (first conjunct), which correspond elementwise to the decoded
entries through the normalisation stage (second conjunct).  In that stage
a LONG-FORM entry (explicit `type` key) passes through verbatim, so its
payloads keep the quote substitute (third conjunct, with the sixth showing
the payload also survives the final adjustments); the `path` payload of a
`chime` short form and the `message` payload of a `tts` short form are the
original payloads with the quote substitute restored to a literal quote,
both right after normalisation and in the final segment (fourth and fifth
conjuncts, for hygienic dicts: lowercase, duplicate-free keys). -/
theorem parse_message_quote_restoration (qs : List Char)
    (decode : List Char → Option YVal) (raw : List Char)
    (elems : List YVal) (segs : List YDict)
    (hm1 : (remove_niqqud raw).length ≠ 0)
    (hm2 : remove_niqqud raw ≠ ls "None")
    (hdec : decode (preprocessYamlStr qs (remove_niqqud raw))
        = some (YVal.list elems))
    (hval : validateSegments qs elems = Except.ok (some segs))
    (hne : segs ≠ []) :
    parse_message qs decode raw = Except.ok (finalizeSegments segs) ∧
    List.Forall₂ (fun (y : YVal) (e₁ : YDict) => ∃ e : YDict,
        y = YVal.dict e ∧ convertShortForm qs e = Except.ok (some e₁)) elems segs ∧
    (∀ e : YDict, yHas e (ls "type") = true →
        convertShortForm qs e = Except.ok (some e)) ∧
    (∀ (e : YDict) (v : List Char),
        yHas e (ls "type") = false →
        yGet e (ls "chime") = some (YVal.str v) →
        keysLower e → keysNodup e →
        ∃ e₁ : YDict, convertShortForm qs e = Except.ok (some e₁) ∧
          yGet e₁ (ls "path") = some (YVal.str (replaceAll qs QUOTE v)) ∧
          yGet (finalSeg e₁) (ls "path") = some (YVal.str (replaceAll qs QUOTE v))) ∧
    (∀ (e : YDict) (v : List Char),
        yHas e (ls "type") = false →
        yGet e (ls "chime") = none →
        yGet e (ls "tts") = some (YVal.str v) →
        keysLower e → keysNodup e →
        ∃ e₁ : YDict, convertShortForm qs e = Except.ok (some e₁) ∧
          yGet e₁ (ls "message") = some (YVal.str (replaceAll qs QUOTE v)) ∧
          yGet (finalSeg e₁) (ls "message") = some (YVal.str (replaceAll qs QUOTE v))) ∧
    (∀ (e : YDict) (k : List Char) (v : List Char),
        yHas e (ls "type") = true →
        keysLower e → keysNodup e →
        k ≠ ls "speed" → k ≠ ls "tts_speed" → k ≠ ls "pitch" → k ≠ ls "tts_pitch" →
        yGet e k = some (YVal.str v) →
        yGet (finalSeg e) k = some (YVal.str v)) := by
  refine ⟨parse_message_eval qs decode raw elems segs hm1 hm2 hdec hval hne,
    validateSegments_forall₂ qs elems segs hval, ?_, ?_, ?_, ?_⟩
  · intro e h
    unfold convertShortForm
    rw [if_pos h]
  · intro e v htype hchime hl hn
    refine ⟨yDel (ySet (ySet e (ls "type") (YVal.str (ls "chime"))) (ls "path")
        (YVal.str (replaceAll qs QUOTE v))) (ls "chime"), ?_, ?_, ?_⟩
    · unfold convertShortForm
      rw [if_neg (by simp [htype]), hchime]
    · rw [yGet_yDel_ne _ _ _ (by decide), yGet_ySet_self]
    · apply yGet_finalSeg_str _ _ _ ?_ ?_ (by decide) (by decide) (by decide) (by decide)
      · rw [yGet_yDel_ne _ _ _ (by decide), yGet_ySet_self]
      · exact keysLower_yDel _ _ (keysLower_ySet _ _ _
          (keysLower_ySet _ _ _ hl (by decide)) (by decide))
      · exact keysNodup_yDel _ _ (keysNodup_ySet _ _ _ (keysNodup_ySet _ _ _ hn))
  · intro e v htype hchime htts hl hn
    refine ⟨yDel (ySet (ySet e (ls "type") (YVal.str (ls "tts"))) (ls "message")
        (YVal.str (replaceAll qs QUOTE v))) (ls "tts"), ?_, ?_, ?_⟩
    · unfold convertShortForm
      rw [if_neg (by simp [htype]), hchime, htts]
    · rw [yGet_yDel_ne _ _ _ (by decide), yGet_ySet_self]
    · apply yGet_finalSeg_str _ _ _ ?_ ?_ (by decide) (by decide) (by decide) (by decide)
      · rw [yGet_yDel_ne _ _ _ (by decide), yGet_ySet_self]
      · exact keysLower_yDel _ _ (keysLower_ySet _ _ _
          (keysLower_ySet _ _ _ hl (by decide)) (by decide))
      · exact keysNodup_yDel _ _ (keysNodup_ySet _ _ _ (keysNodup_ySet _ _ _ hn))
  · intro e k v _ hl hn h1 h2 h3 h4 hget
    exact yGet_finalSeg_str e k v hl hn h1 h2 h3 h4 hget

/-- Witness for the amended C9: a short-form `chime` segment whose payload
carries the substitute character, parsed end to end; the final segment
holds the restored `path`. -/
theorem parse_message_quote_restoration_witness :
    (remove_niqqud (ls "x")).length ≠ 0 ∧
    parse_message QUOTE_CHAR_SUBSTITUTE
        (fun _ => some (YVal.list [YVal.dict
          [(ls "chime", YVal.str (ls "c" ++ QUOTE_CHAR_SUBSTITUTE))]]))
        (ls "x")
      = Except.ok (finalizeSegments
          [[(ls "type", YVal.str (ls "chime")),
            (ls "path", YVal.str (replaceAll QUOTE_CHAR_SUBSTITUTE QUOTE
              (ls "c" ++ QUOTE_CHAR_SUBSTITUTE)))]]) :=
  ⟨by decide,
    (parse_message_quote_restoration QUOTE_CHAR_SUBSTITUTE
      (fun _ => some (YVal.list [YVal.dict
        [(ls "chime", YVal.str (ls "c" ++ QUOTE_CHAR_SUBSTITUTE))]]))
      (ls "x")
      [YVal.dict [(ls "chime", YVal.str (ls "c" ++ QUOTE_CHAR_SUBSTITUTE))]]
      [[(ls "type", YVal.str (ls "chime")),
        (ls "path", YVal.str (replaceAll QUOTE_CHAR_SUBSTITUTE QUOTE
          (ls "c" ++ QUOTE_CHAR_SUBSTITUTE)))]]
      (by decide) (by decide) rfl (by rfl) (List.cons_ne_nil _ _)).1⟩

end ChimeTTS
